import Mathlib

/-!
# Domain-label sanitizers of `records/labels/labels.go`

A shallow embedding of the Go package `labels`: the permissive sanitizer
`RFC1123` (the automaton `stringTrimmerFSM`), the strict sanitizer `RFC952`
(`label`, `mapping`, `trimCut`) and `DomainFrag`; of the hash functions
`hashStringFNV64` and `hashStringSha` of `records/generator_test.go`; and of
the record store and the leader/master synthesizer, whose source file is
missing and which follow the specification.

Go strings and byte slices are sequences of bytes, here of type `List Nat`: a
byte is a natural number (below 256 for a real byte), and the embedding never
does byte arithmetic that could wrap.  Go `int` values (`maxlen`, lengths, indices) are integers.
-/

namespace Labels

/-! ## Go slices

A `[]byte` is a window on a backing array.  `data` holds the elements
`s[0] .. s[len(s)-1]`; `spare` holds the elements of the backing array between
`len(s)` and `cap(s)`.  The Go language specification lets a slice expression
on a slice reach up to the capacity: `s[:hi]` is in range iff
`0 <= hi <= cap(s)`, and `s[lo:]` is in range iff `0 <= lo <= len(s)`; out of
range is a run-time panic, modelled by `none`. -/

/-- A Go byte slice: its elements, then the rest of its backing array. -/
structure Slice where
  data : List Nat
  spare : List Nat
  deriving DecidableEq, Repr

/-- The Go `nil` slice: length 0, capacity 0. -/
def Slice.nil : Slice := ⟨[], []⟩

/-- The Go builtin `len(s)`. -/
def Slice.len (s : Slice) : Int := s.data.length

/-- The Go builtin `cap(s)`. -/
def Slice.cap (s : Slice) : Int := s.data.length + s.spare.length

/-- The slice expression `s[:hi]`; `none` is the out-of-range panic. -/
def Slice.upto (s : Slice) (hi : Int) : Option Slice :=
  if 0 ≤ hi ∧ hi ≤ s.cap then
    some ⟨(s.data ++ s.spare).take hi.toNat, (s.data ++ s.spare).drop hi.toNat⟩
  else none

/-- The slice expression `s[lo:]`; `none` is the out-of-range panic. -/
def Slice.since (s : Slice) (lo : Int) : Option Slice :=
  if 0 ≤ lo ∧ lo ≤ s.len then some ⟨s.data.drop lo.toNat, s.spare⟩ else none

/-! ## The parts of Go's `bytes` package that the sanitizers call

Every cutset passed in `labels.go` is an ASCII string (`"-"` and
`"-0123456789"`), for which `bytes.TrimLeft`, `bytes.TrimRight` and
`bytes.IndexAny` work byte by byte. -/

/-- The elements left after `bytes.TrimLeft(s, cutset)`. -/
def trimLeftBytes (s : List Nat) (cutset : List Nat) : List Nat :=
  s.dropWhile (fun b => decide (b ∈ cutset))

/-- The elements left after `bytes.TrimRight(s, cutset)`. -/
def trimRightBytes (s : List Nat) (cutset : List Nat) : List Nat :=
  s.rdropWhile (fun b => decide (b ∈ cutset))

/-- Go `bytes.TrimLeft`: a sub-slice of `s` that keeps the end of the backing
array, or `nil` when nothing is left. -/
def TrimLeft (s : Slice) (cutset : List Nat) : Slice :=
  if trimLeftBytes s.data cutset = [] then Slice.nil
  else ⟨trimLeftBytes s.data cutset, s.spare⟩

/-- Go `bytes.TrimRight`: the sub-slice `s[:k]` (`s` itself when it is empty);
the bytes cut off stay in the backing array. -/
def TrimRight (s : Slice) (cutset : List Nat) : Slice :=
  ⟨trimRightBytes s.data cutset,
    s.data.drop (trimRightBytes s.data cutset).length ++ s.spare⟩

/-- Go `bytes.IndexByte(s, c)`: the index of the first `c` in `s`, or `-1`. -/
def IndexByte : List Nat → Nat → Int
  | [], _ => -1
  | b :: rest, c =>
    if b = c then 0
    else if IndexByte rest c < 0 then -1 else IndexByte rest c + 1

/-- Go `bytes.IndexAny(s, chars)` for an ASCII `chars`: the index of the first
byte of `s` that occurs in `chars`, or `-1`. -/
def IndexAny : List Nat → List Nat → Int
  | [], _ => -1
  | b :: rest, chars =>
    if b ∈ chars then 0
    else if IndexAny rest chars < 0 then -1 else IndexAny rest chars + 1

/-- Go `bytes.ToLower`.  An all-ASCII `s` takes the fast path, which adds
`'a' - 'A'` to each of `'A'..'Z'`.  Any other `s` goes through
`bytes.Map(unicode.ToLower, s)`, which depends on UTF-8 decoding and on the
Unicode case tables; that path is the parameter `lowerNonASCII`. -/
def ToLower (lowerNonASCII : List Nat → List Nat) (s : List Nat) : List Nat :=
  if s.all (fun c => decide (c < 128)) then
    s.map (fun c => if 65 ≤ c ∧ c ≤ 90 then c + (97 - 65) else c)
  else lowerNonASCII s

/-! ## The permissive sanitizer: `stringTrimmerFSM` -/

/-- The constants `START`, `MIDDLE`, `END`. -/
inductive State
  | START
  | MIDDLE
  | END
  deriving DecidableEq, Repr

/-- The bytes of `"0123456789abcdefghijklmnopqrstuvwxyz"`. -/
def ALLOWED_CHARS : List Nat :=
  [48, 49, 50, 51, 52, 53, 54, 55, 56, 57,
   97, 98, 99, 100, 101, 102, 103, 104, 105, 106, 107, 108, 109,
   110, 111, 112, 113, 114, 115, 116, 117, 118, 119, 120, 121, 122]

/-- The loop variables of `stringTrimmerFSM`: `state`, `accum` and what is
left of `name`.  Only the elements of `accum` are ever observed. -/
structure Config where
  state : State
  accum : List Nat
  name : List Nat
  deriving DecidableEq, Repr

/-- What one pass through the body of the `for` loop does: it either returns
 or goes round again with new loop variables. -/
inductive Step
  | done (out : List Nat)
  | next (c : Config)
  deriving DecidableEq, Repr

/-- The code after the `switch`: copy `name[0]` if it is allowed, then drop it
from `name`. -/
def afterSwitch (st : State) (accum : List Nat) (b : Nat) (rest : List Nat) : Step :=
  .next ⟨st, if IndexByte ALLOWED_CHARS b > -1 then accum ++ [b] else accum, rest⟩

/-- One iteration of the `for` loop of `stringTrimmerFSM`. -/
def step (maxlen : Int) (left right : List Nat) (c : Config) : Step :=
  match c.name with
  | [] => .done (trimRightBytes c.accum right)
  | b :: rest =>
    match c.state with
    | .START =>
      if IndexByte ALLOWED_CHARS b > -1 ∧ IndexAny [b] left = -1 then
        .next ⟨.MIDDLE, c.accum, b :: rest⟩
      else afterSwitch .START c.accum b rest
    | .MIDDLE =>
      if (c.accum.length : Int) ≥ maxlen then
        .next ⟨.END, trimRightBytes c.accum [45], b :: rest⟩
      else if b = 45 ∨ b = 95 ∨ b = 46 then
        .next ⟨.MIDDLE, c.accum ++ [45], rest⟩
      else afterSwitch .MIDDLE c.accum b rest
    | .END =>
      if (c.accum.length : Int) = maxlen then
        .next ⟨.END, c.accum, []⟩
      else afterSwitch .END c.accum b rest

/-- The number of states still ahead of `st` in `START < MIDDLE < END`. -/
def statesLeft : State → Nat
  | .START => 2
  | .MIDDLE => 1
  | .END => 0

/-- The size of a configuration: input left, then states left. -/
def Config.size (c : Config) : Nat := 3 * c.name.length + statesLeft c.state

/-- The `for` loop of `stringTrimmerFSM`, run to its `return`.  It is total:
an iteration that goes round again makes `Config.size` smaller. -/
def loop (maxlen : Int) (left right : List Nat) (c : Config) : List Nat :=
  match h : step maxlen left right c with
  | .done out => out
  | .next c' => loop maxlen left right c'
termination_by c.size
decreasing_by
  obtain ⟨st, acc, nm⟩ := c
  cases nm with
  | nil => simp [step] at h
  | cons b rest =>
    cases st <;> simp only [step, afterSwitch] at h <;> split_ifs at h <;>
      (injection h with h; subst h; simp [Config.size, statesLeft])

/-- The first `n` iterations of the loop: `some out` once it has returned. -/
def loopN (maxlen : Int) (left right : List Nat) : Nat → Config → Option (List Nat)
  | 0, _ => none
  | n + 1, c =>
    match step maxlen left right c with
    | .done out => some out
    | .next c' => loopN maxlen left right n c'

/-- Go `stringTrimmerFSM`. -/
def stringTrimmerFSM (lowerNonASCII : List Nat → List Nat) (name : List Nat)
    (maxlen : Int) (left right : List Nat) : List Nat :=
  loop maxlen left right ⟨.START, [], ToLower lowerNonASCII name⟩

/-- Go `RFC1123`: the cutsets are `"-"` and `"-"`. -/
def RFC1123 (lowerNonASCII : List Nat → List Nat) (name : List Nat) : List Nat :=
  stringTrimmerFSM lowerNonASCII name 63 [45] [45]

/-! ## The strict sanitizer: `label`, `mapping`, `trimCut` -/

/-- Go `mapping`, on runes; `-1` tells `bytes.Map` to drop the rune. -/
def mapping (r : Int) : Int :=
  if 65 ≤ r ∧ r ≤ 90 then r - (65 - 97)
  else if 97 ≤ r ∧ r ≤ 122 then r
  else if 48 ≤ r ∧ r ≤ 57 then r
  else if r = 45 ∨ r = 46 ∨ r = 95 then 45
  else -1

/-- Go `bytes.Map(mapping, s)` for the `mapping` above.  `bytes.Map` decodes
`s` rune by rune; a byte below `0x80` is a rune by itself, and every byte
`>= 0x80` belongs to a rune `>= 0x80` (or to `RuneError`), which `mapping`
sends to `-1` exactly as it sends the byte value, so the result is computed
byte by byte.  `bytes.Map` writes into a buffer made with capacity `len(s)`
(`make([]byte, 0, len(s))`): the part of it that is not written stays zero and
is the spare capacity of the result. -/
def Map (mapping : Int → Int) (s : List Nat) : Slice :=
  let out := s.filterMap (fun (b : Nat) => if mapping b ≥ 0 then some (mapping b).toNat else none)
  ⟨out, List.replicate (s.length - out.length) 0⟩

/-- Go `min`. -/
def min (a b : Int) : Int := if a < b then a else b

/-- Go `trimCut`; `none` is a slice-bounds panic.  The result is the content
of the returned slice; `append` copies `tail[:size-len(head)]` behind `head`. -/
def trimCut (label : Slice) (maxlen : Int) (left right : List Nat) : Option (List Nat) :=
  let trim := TrimLeft label left
  let size := min trim.len maxlen
  match trim.upto size with
  | none => none
  | some cut =>
    let head := TrimRight cut right
    if head.len = size then some head.data
    else
      match trim.since size with
      | none => none
      | some rest =>
        let tail := TrimLeft rest right
        if tail.len > 0 then
          match tail.upto (size - head.len) with
          | none => none
          | some fill => some (head.data ++ fill.data)
        else some head.data

/-- Go `label`. -/
def label (name : List Nat) (maxlen : Int) (left right : List Nat) : Option (List Nat) :=
  trimCut (Map mapping name) maxlen left right

/-- Go `RFC952`: the cutsets are `"-0123456789"` and `"-"`. -/
def RFC952 (name : List Nat) : Option (List Nat) :=
  label name 24 [45, 48, 49, 50, 51, 52, 53, 54, 55, 56, 57] [45]

/-! ## `DomainFrag` -/

/-- Go `strings.Index(s, sep)`: the first index at which `sep` starts in `s`,
or `-1`. -/
def Index : List Nat → List Nat → Int
  | [], sep => if sep = [] then 0 else -1
  | b :: rest, sep =>
    if sep.isPrefixOf (b :: rest) then 0
    else if Index rest sep < 0 then -1 else Index rest sep + 1

/-- The loop of Go `strings.Split` (`genSplit`) for a non-empty `sep`: cut `s`
at the first `sep`, keep the piece before it, go on behind it.  Each cut
removes at least one byte, so at most `len(s)` cuts happen. -/
def splitLoop : Nat → List Nat → List Nat → List (List Nat)
  | 0, s, _ => [s]
  | n + 1, s, sep =>
    if Index s sep < 0 then [s]
    else s.take (Index s sep).toNat :: splitLoop n (s.drop ((Index s sep).toNat + sep.length)) sep

/-- Go `strings.Split(s, sep)`.  For the empty `sep` Go splits after each
UTF-8 sequence; that case is given here for ASCII `s` only (one byte each). -/
def Split (s sep : List Nat) : List (List Nat) :=
  if sep = [] then s.map (fun b => [b]) else splitLoop s.length s sep

/-- Go `strings.Join(elems, sep)`. -/
def Join : List (List Nat) → List Nat → List Nat
  | [], _ => []
  | [a], _ => a
  | a :: b :: rest, sep => a ++ sep ++ Join (b :: rest) sep

/-- Go `Func`: a label function. -/
abbrev Func := List Nat → List Nat

/-- The body of the `range` loop in `DomainFrag`. -/
def addLabel (label : Func) (labels : List (List Nat)) (part : List Nat) :
    List (List Nat) :=
  if label part ≠ [] then labels ++ [label part] else labels

/-- Go `DomainFrag`. -/
def DomainFrag (name sep : List Nat) (label : Func) : List Nat :=
  Join ((Split name sep).foldl (addLabel label) []) sep

/-! ## Predicates used in the statements -/

/-- A lowercase letter `a`..`z`. -/
def isLower (b : Nat) : Prop := 97 ≤ b ∧ b ≤ 122

/-- A digit `0`..`9`. -/
def isDigit (b : Nat) : Prop := 48 ≤ b ∧ b ≤ 57

/-- A lowercase letter or a digit. -/
def isAlnum (b : Nat) : Prop := isLower b ∨ isDigit b

/-- A byte of `[a-z0-9-]`. -/
def isLabelByte (b : Nat) : Prop := isAlnum b ∨ b = 45

/-- One of the separators `-`, `_`, `.`. -/
def isSep (b : Nat) : Prop := b = 45 ∨ b = 95 ∨ b = 46

instance (b : Nat) : Decidable (isLower b) := by unfold isLower; infer_instance
instance (b : Nat) : Decidable (isDigit b) := by unfold isDigit; infer_instance
instance (b : Nat) : Decidable (isAlnum b) := by unfold isAlnum; infer_instance
instance (b : Nat) : Decidable (isLabelByte b) := by unfold isLabelByte; infer_instance
instance (b : Nat) : Decidable (isSep b) := by unfold isSep; infer_instance

/-- A well-formed label of at most `n` bytes: bytes of `[a-z0-9-]`, a letter
or digit first, no hyphen last. -/
def GoodLabel (n : Nat) (out : List Nat) : Prop :=
  (∀ b ∈ out, isLabelByte b) ∧ (∀ b, out.head? = some b → isAlnum b) ∧
    out.length ≤ n ∧ (∀ b, out.getLast? = some b → b ≠ 45)

/-- The loop invariant of `stringTrimmerFSM` as `RFC1123` calls it. -/
def Inv (c : Config) : Prop :=
  (∀ b ∈ c.accum, isLabelByte b) ∧ (∀ b, c.accum.head? = some b → isAlnum b) ∧
    c.accum.length ≤ 63 ∧ (c.state = .START → c.accum = []) ∧
    (c.state = .MIDDLE → c.accum = [] → ∀ b, c.name.head? = some b → isAlnum b)

/-- The hyphen for a separator, the byte itself otherwise. -/
def hyphenate (b : Nat) : Nat := if b = 45 ∨ b = 95 ∨ b = 46 then 45 else b

/-- The labels `DomainFrag` joins, as the spec words them: the non-empty values
of `label` over the parts, in order. -/
def keptLabels (label : Func) (parts : List (List Nat)) : List (List Nat) :=
  (parts.map label).filter (fun l => decide (l ≠ []))

/-- Labels that are non-empty and hold no byte of `sep`. -/
def SepFree (sep : List Nat) (ls : List (List Nat)) : Prop :=
  ∀ l ∈ ls, l ≠ [] ∧ ∀ b ∈ l, b ∉ sep

/-! ## Reference forms named by the claims -/

/-- An ASCII letter. -/
def isLetter (b : Nat) : Prop := (65 ≤ b ∧ b ≤ 90) ∨ (97 ≤ b ∧ b ≤ 122)

instance (b : Nat) : Decidable (isLetter b) := by unfold isLetter; infer_instance

/-- The lowercase of an ASCII byte. -/
def lowerByte (b : Nat) : Nat := if 65 ≤ b ∧ b ≤ 90 then b + 32 else b

/-- What the normal form keeps of one byte: a letter lowercased, a digit as it
is, a hyphen for each of `-`, `.`, `_`, nothing for any other byte. -/
def normalByte (b : Nat) : Option Nat :=
  if 65 ≤ b ∧ b ≤ 90 then some (b + 32)
  else if isLower b ∨ isDigit b then some b
  else if b = 45 ∨ b = 46 ∨ b = 95 then some 45
  else none

/-- The normal form of a name before any trimming: letters lowercased, digits
kept, separators replaced by hyphens, every other byte deleted. -/
def normalForm (x : List Nat) : List Nat := x.filterMap normalByte

/-- What a normal form that knows only letters and separators keeps of one
byte: a letter lowercased, a hyphen for each of `-`, `_`, `.`, nothing for any
other byte, a digit included. -/
def lettersOnlyByte (b : Nat) : Option Nat :=
  if 65 ≤ b ∧ b ≤ 90 then some (b + 32)
  else if isLower b then some b
  else if b = 45 ∨ b = 95 ∨ b = 46 then some 45
  else none

/-- The normal form without digits: letters lowercased, separators mapped to
hyphens, every other byte deleted, leading hyphens stripped. -/
def lettersOnlyForm (x : List Nat) : List Nat :=
  trimLeftBytes (x.filterMap lettersOnlyByte) [45]

/-- The bytes of `"-0123456789"`, the left cutset of `RFC952`. -/
def digitsAndHyphen : List Nat := [45, 48, 49, 50, 51, 52, 53, 54, 55, 56, 57]

/-- The loop variables of `stringTrimmerFSM` after `n` iterations; `none` if
the loop has returned before. -/
def stepsN (maxlen : Int) (left right : List Nat) : Nat → Config → Option Config
  | 0, c => some c
  | n + 1, c =>
    match step maxlen left right c with
    | .done _ => none
    | .next c' => stepsN maxlen left right n c'

/-- In `END` the accumulated output does not end with a hyphen. -/
def EndClean (c : Config) : Prop :=
  c.state = .END → ∀ b, c.accum.getLast? = some b → b ≠ 45

/-! ## The hash functions of `records/generator_test.go`

`hash/fnv`, `strconv.FormatInt`, `encoding/base32` and `strings.ToLower` are
Go library code, embedded here from their documented behaviour; `sha1.Sum` is
a parameter. -/

/-- FNV `offset64`. -/
def offset64 : Nat := 14695981039346656037

/-- FNV `prime64`. -/
def prime64 : Nat := 1099511628211

/-- Go `fnv.New64a()`, `Write(data)`, `Sum64()`: for each byte `hash ^= c`,
then `hash *= prime64` in `uint64`. -/
def fnv64a (data : List Nat) : Nat :=
  data.foldl (fun hash c => ((hash ^^^ c) * prime64) % 2 ^ 64) offset64

/-- The expression `int64(hash>>32 ^ (hash & 0xffffffff))`. -/
def foldedHash (hash : Nat) : Int := (((hash >>> 32) ^^^ (hash &&& 0xffffffff) : Nat) : Int)

/-- The constant `digits` of `strconv`:
`"0123456789abcdefghijklmnopqrstuvwxyz"`. -/
def digits : List Nat :=
  [48, 49, 50, 51, 52, 53, 54, 55, 56, 57,
   97, 98, 99, 100, 101, 102, 103, 104, 105, 106, 107, 108, 109,
   110, 111, 112, 113, 114, 115, 116, 117, 118, 119, 120, 121, 122]

/-- The loop of `strconv.formatBits`: `for u >= b { a[i] = digits[u%b]; u /= b }`,
then `a[i] = digits[u]`; the digits come out most significant first.  The
first argument bounds the number of iterations; `u` iterations are enough. -/
def formatBits (base : Nat) : Nat → Nat → List Nat
  | 0, u => [digits.getD u 0]
  | fuel + 1, u =>
    if u ≥ base then formatBits base fuel (u / base) ++ [digits.getD (u % base) 0]
    else [digits.getD u 0]

/-- Go `strconv.FormatInt(i, base)` for `2 <= base <= 36`. -/
def FormatInt (i : Int) (base : Nat) : List Nat :=
  if i < 0 then 45 :: formatBits base (-i).toNat (-i).toNat
  else formatBits base i.toNat i.toNat

/-- Go `strconv.Itoa`. -/
def Itoa (i : Int) : List Nat := FormatInt i 10

/-- Go `hashStringFNV64`; `strings.ToLower` has the shape of `bytes.ToLower`. -/
def hashStringFNV64 (lowerNonASCII : List Nat → List Nat) (s : List Nat) : List Nat :=
  ToLower lowerNonASCII (FormatInt (foldedHash (fnv64a s)) 32)

/-- The alphabet of `base32.HexEncoding`:
`"0123456789ABCDEFGHIJKLMNOPQRSTUV"`. -/
def encodeHex : List Nat :=
  [48, 49, 50, 51, 52, 53, 54, 55, 56, 57,
   65, 66, 67, 68, 69, 70, 71, 72, 73, 74, 75, 76, 77, 78, 79, 80, 81, 82, 83, 84, 85, 86]

/-- The eight 5-bit values `b[0] .. b[7]` that `base32.Encode` unpacks from a
quantum of five bytes (a shorter last quantum leaves the missing bytes out,
which is the same as taking them to be zero). -/
def quantum (s0 s1 s2 s3 s4 : Nat) : List Nat :=
  [s0 >>> 3,
   ((s0 <<< 2) &&& 31) ||| ((s1 >>> 6) &&& 31),
   (s1 >>> 1) &&& 31,
   ((s1 <<< 4) &&& 31) ||| ((s2 >>> 4) &&& 31),
   ((s2 <<< 1) &&& 31) ||| (s3 >>> 7),
   (s3 >>> 2) &&& 31,
   ((s3 <<< 3) &&& 31) ||| (s4 >>> 5),
   s4 &&& 31]

/-- The character `enc.encode[b & 31]`. -/
def encodeChar (b : Nat) : Nat := encodeHex.getD (b &&& 31) 0

/-- Go `base32.HexEncoding.EncodeToString`: eight characters for each five
bytes; a shorter last quantum is padded with `=`. -/
def EncodeToString : List Nat → List Nat
  | [] => []
  | [s0] => ((quantum s0 0 0 0 0).take 2).map encodeChar ++ List.replicate 6 61
  | [s0, s1] => ((quantum s0 s1 0 0 0).take 4).map encodeChar ++ List.replicate 4 61
  | [s0, s1, s2] => ((quantum s0 s1 s2 0 0).take 5).map encodeChar ++ List.replicate 3 61
  | [s0, s1, s2, s3] => ((quantum s0 s1 s2 s3 0).take 7).map encodeChar ++ List.replicate 1 61
  | s0 :: s1 :: s2 :: s3 :: s4 :: rest =>
    (quantum s0 s1 s2 s3 s4).map encodeChar ++ EncodeToString rest

/-- Go `hashStringSha`.  `sha1.Sum` is the parameter `sha1Sum`; it returns a
`[20]byte`, so `out` has 32 characters and `out[:6]` is in range. -/
def hashStringSha (sha1Sum : List Nat → List Nat) (lowerNonASCII : List Nat → List Nat)
    (s : List Nat) : List Nat :=
  ToLower lowerNonASCII ((EncodeToString (sha1Sum s)).take 6)

/-- The first 30 bits of a digest, as a number: three bytes and the upper six
bits of the fourth. -/
def first30Bits (digest : List Nat) : Nat :=
  ((digest.getD 0 0 * 256 + digest.getD 1 0) * 256 + digest.getD 2 0) * 64 +
    digest.getD 3 0 / 4

/-! ## The record store and the leader/master synthesizer

`records/generator.go` is not among the sources: `rrs`, `insertRR` and
`masterRecord` are known from their tests in `generator_test.go` and from the
specification, sections 3, 4.3 and 4.4, whose words the definitions follow. -/

/-- Modelled from the spec: the Record Store `rrs` (generator.go is missing), a
mapping from a domain name to the ordered sequence of its targets, kept as a
list of entries. -/
abbrev rrs := List (List Nat × List (List Nat))

/-- Modelled from the spec: `lookup(name)` of the Record Store (generator.go is
missing): the ordered sequence for `name`, possibly empty. -/
def rrs.lookup : rrs → List Nat → List (List Nat)
  | [], _ => []
  | (k, v) :: rest, name => if k = name then v else rrs.lookup rest name

/-- Modelled from the spec: `insert(name, target)` of the Record Store
(generator.go is missing): append `target` to the sequence for `name`,
creating the sequence if absent; a no-op if `target` is already in it. -/
def rrs.insert : rrs → List Nat → List Nat → rrs
  | [], name, target => [(name, [target])]
  | (k, v) :: rest, name, target =>
    if k = name then
      (if target ∈ v then (k, v) :: rest else (k, v ++ [target]) :: rest)
    else (k, v) :: rrs.insert rest name target

/-- The record types `"A"` and `"SRV"`. -/
inductive RType
  | A
  | SRV
  deriving DecidableEq, Repr

/-- Modelled from the spec: the two Record Stores of one generation cycle
(generator.go is missing), address records and service records. -/
structure RecordGenerator where
  As : rrs
  SRVs : rrs
  deriving DecidableEq, Repr

/-- Modelled from the spec: `insertRR(name, host, rtype)` (generator.go is
missing): `insert` into the store of the record type. -/
def RecordGenerator.insertRR (rg : RecordGenerator) (name host : List Nat) (rtype : RType) :
    RecordGenerator :=
  match rtype with
  | .A => { rg with As := rg.As.insert name host }
  | .SRV => { rg with SRVs := rg.SRVs.insert name host }

/-- The text of `s` before its first `c`. -/
def beforeFirst (c : Nat) (s : List Nat) : List Nat := s.takeWhile (fun b => decide (b ≠ c))

/-- The text of `s` after its first `c`. -/
def afterFirst (c : Nat) (s : List Nat) : List Nat := (s.dropWhile (fun b => decide (b ≠ c))).drop 1

/-- Modelled from the spec: parsing of the leader descriptor
`<opaque-id>@<host>:<port>` (generator.go is missing), valid iff it contains
exactly one `@`, the substring after `@` contains exactly one `:`, and host and
port are both non-empty. -/
def parseLeader (leader : List Nat) : Option (List Nat × List Nat) :=
  if leader.count 64 = 1 then
    if (afterFirst 64 leader).count 58 = 1 then
      if beforeFirst 58 (afterFirst 64 leader) ≠ [] ∧ afterFirst 58 (afterFirst 64 leader) ≠ []
      then some (beforeFirst 58 (afterFirst 64 leader), afterFirst 58 (afterFirst 64 leader))
      else none
    else none
  else none

/-- Modelled from the spec: the host part of a `host:port` string
(generator.go is missing). -/
def hostPart (addr : List Nat) : List Nat := beforeFirst 58 addr

/-- The name `"leader." + domain + "."`. -/
def leaderName (domain : List Nat) : List Nat :=
  [108, 101, 97, 100, 101, 114, 46] ++ domain ++ [46]

/-- The name `"master." + domain + "."`. -/
def masterName (domain : List Nat) : List Nat :=
  [109, 97, 115, 116, 101, 114, 46] ++ domain ++ [46]

/-- The name `"master" + strconv.Itoa(i) + "." + domain + "."`. -/
def masterN (i : Nat) (domain : List Nat) : List Nat :=
  [109, 97, 115, 116, 101, 114] ++ Itoa i ++ [46] ++ domain ++ [46]

/-- Modelled from the spec: deduplication by first occurrence, preserving order
(step 3 of the synthesizer; generator.go is missing). -/
def dedupMasters (masters : List (List Nat)) : List (List Nat) :=
  masters.foldl (fun u m => if m ∈ u then u else u ++ [m]) []

/-- Modelled from the spec: step 5 of the synthesizer (generator.go is
missing): for index `i` over `U`, insert the host of `U[i]` under
`master.<domain>.` and under `master<i>.<domain>.`. -/
def masterLoop (domain : List Nat) : Nat → List (List Nat) → RecordGenerator → RecordGenerator
  | _, [], rg => rg
  | i, m :: rest, rg =>
    masterLoop domain (i + 1) rest
      ((rg.insertRR (masterName domain) (hostPart m) .A).insertRR (masterN i domain)
        (hostPart m) .A)

/-- Modelled from the spec: `masterRecord(domain, masters, leader)`, the
Leader/Master Synthesizer of section 4.4 (generator.go is missing). -/
def masterRecord (domain : List Nat) (masters : List (List Nat)) (leader : List Nat)
    (rg : RecordGenerator) : RecordGenerator :=
  match parseLeader leader with
  | none => rg
  | some (host, port) =>
    let leaderAddr := host ++ [58] ++ port
    let rg1 := rg.insertRR (leaderName domain) host .A
    let rg2 := rg1.insertRR (masterName domain) host .A
    let rg3 := rg2.insertRR ([95, 108, 101, 97, 100, 101, 114, 46, 95, 116, 99, 112, 46] ++
      domain ++ [46]) (leaderName domain ++ [58] ++ port) .SRV
    let rg4 := rg3.insertRR ([95, 108, 101, 97, 100, 101, 114, 46, 95, 117, 100, 112, 46] ++
      domain ++ [46]) (leaderName domain ++ [58] ++ port) .SRV
    let u := dedupMasters masters
    masterLoop domain 0 (if leaderAddr ∈ u then u else u ++ [leaderAddr]) rg4

/-- The elements of a list in the order of their first occurrence. -/
def firstOccurrences : List (List Nat) → List (List Nat)
  | [] => []
  | a :: l => a :: (firstOccurrences l).filter (fun x => decide (x ≠ a))

/-- The sequence `U` of the claims: `L` deduplicated by first occurrence, with
the leader address appended if absent. -/
def uniqueMasters (L : List (List Nat)) (leaderAddr : List Nat) : List (List Nat) :=
  firstOccurrences L ++ (if leaderAddr ∈ L then [] else [leaderAddr])

/-- A malformed leader descriptor: no `@`, or no `:` after the `@`, or an empty
host, or an empty port. -/
def Malformed (leader : List Nat) : Prop :=
  64 ∉ leader ∨ 58 ∉ afterFirst 64 leader ∨ beforeFirst 58 (afterFirst 64 leader) = [] ∨
    afterFirst 58 (afterFirst 64 leader) = []

instance (leader : List Nat) : Decidable (Malformed leader) := by
  unfold Malformed; infer_instance

/-- Insertion into one sequence of targets: a no-op if the target is there. -/
def insertTarget (l : List (List Nat)) (t : List Nat) : List (List Nat) :=
  if t ∈ l then l else l ++ [t]

/-! ## Evaluating the loop -/

theorem loop_of_loopN (maxlen : Int) (left right : List Nat) (n : Nat) :
    ∀ (c : Config) (out : List Nat),
      loopN maxlen left right n c = some out → loop maxlen left right c = out := by
  induction n with
  | zero => intro c out h; simp [loopN] at h
  | succ n ih =>
    intro c out h
    rw [loop]
    simp only [loopN] at h
    split
    · rename_i o ho; rw [ho] at h; simpa using h
    · rename_i c' hc; rw [hc] at h; exact ih c' out h

/-! ## Library functions, characterised -/

theorem indexByte_spec (s : List Nat) (c : Nat) :
    (c ∈ s → 0 ≤ IndexByte s c) ∧ (c ∉ s → IndexByte s c = -1) := by
  induction s with
  | nil => simp [IndexByte]
  | cons b rest ih =>
    by_cases hb : b = c
    · simp [IndexByte, hb]
    · by_cases hm : c ∈ rest
      · have h0 := ih.1 hm
        have hlt : ¬ IndexByte rest c < 0 := by omega
        simp only [IndexByte, if_neg hb, if_neg hlt]
        constructor
        · intro _; omega
        · intro hn; exact absurd (List.mem_cons_of_mem _ hm) hn
      · have h1 := ih.2 hm
        have hlt : IndexByte rest c < 0 := by omega
        simp only [IndexByte, if_neg hb, if_pos hlt]
        constructor
        · intro hn
          rcases List.mem_cons.1 hn with h | h
          · exact absurd h.symm hb
          · exact absurd h hm
        · intro _; trivial

theorem indexByte_gt_iff (s : List Nat) (c : Nat) : IndexByte s c > -1 ↔ c ∈ s := by
  have h := indexByte_spec s c
  constructor
  · intro hgt
    by_contra hn
    have := h.2 hn
    omega
  · intro hm
    have := h.1 hm
    omega

theorem mem_allowed_iff (b : Nat) : b ∈ ALLOWED_CHARS ↔ isAlnum b := by
  constructor
  · intro h
    simp only [ALLOWED_CHARS, List.mem_cons, List.mem_nil_iff, or_false] at h
    unfold isAlnum isLower isDigit
    omega
  · intro h
    unfold isAlnum isLower isDigit at h
    have hb : (48 ≤ b ∧ b ≤ 57) ∨ (97 ≤ b ∧ b ≤ 122) := by omega
    rcases hb with ⟨h1, h2⟩ | ⟨h1, h2⟩ <;> interval_cases b <;> decide

theorem allowed_iff (b : Nat) : IndexByte ALLOWED_CHARS b > -1 ↔ isAlnum b :=
  (indexByte_gt_iff _ _).trans (mem_allowed_iff b)

theorem indexAny_single (b : Nat) (chars : List Nat) :
    IndexAny [b] chars = -1 ↔ b ∉ chars := by
  by_cases h : b ∈ chars <;> simp [IndexAny, h]

theorem trimRightBytes_isPre (s cutset : List Nat) : trimRightBytes s cutset <+: s :=
  List.rdropWhile_prefix _ _

theorem trimRightBytes_length_le (s cutset : List Nat) :
    (trimRightBytes s cutset).length ≤ s.length :=
  (trimRightBytes_isPre s cutset).length_le

theorem trimRightBytes_mem {s cutset : List Nat} {b : Nat}
    (h : b ∈ trimRightBytes s cutset) : b ∈ s :=
  (trimRightBytes_isPre s cutset).subset h

theorem trimRightBytes_head {s cutset : List Nat} {b : Nat}
    (h : (trimRightBytes s cutset).head? = some b) : s.head? = some b := by
  obtain ⟨t, ht⟩ := trimRightBytes_isPre s cutset
  cases hr : trimRightBytes s cutset with
  | nil => rw [hr] at h; simp at h
  | cons a r =>
    rw [hr] at h ht
    rw [← ht]
    simpa using h

theorem trimRightBytes_last {s cutset : List Nat} {b : Nat}
    (h : (trimRightBytes s cutset).getLast? = some b) : b ∉ cutset := by
  have hne : trimRightBytes s cutset ≠ [] := by
    intro h0; rw [h0] at h; simp at h
  have hl := List.rdropWhile_last_not (fun b => decide (b ∈ cutset)) s hne
  rw [List.getLast?_eq_getLast _ hne] at h
  have hb : (List.rdropWhile (fun b => decide (b ∈ cutset)) s).getLast hne = b := by
    simpa [trimRightBytes] using h
  rw [hb] at hl
  simpa using hl

/-- Trimming changes nothing when the last byte is not in the cutset. -/
theorem trimRightBytes_id {s cutset : List Nat}
    (h : ∀ b, s.getLast? = some b → b ∉ cutset) : trimRightBytes s cutset = s := by
  rcases List.eq_nil_or_concat s with rfl | ⟨t, b, rfl⟩
  · simp [trimRightBytes]
  · have hb : b ∉ cutset := h b (by simp)
    simp [trimRightBytes, List.rdropWhile_concat, hb]

/-! ## The permissive sanitizer: what the loop maintains -/

theorem isAlnum_ne_hyphen {b : Nat} (h : isAlnum b) : b ≠ 45 := by
  unfold isAlnum isLower isDigit at h; omega

theorem isAlnum_not_sep {b : Nat} (h : isAlnum b) : ¬ (b = 45 ∨ b = 95 ∨ b = 46) := by
  unfold isAlnum isLower isDigit at h; omega

theorem inv_push {st : State} {acc nm : List Nat} {b : Nat}
    (hacc : ∀ x ∈ acc, isLabelByte x) (hhead : ∀ x, acc.head? = some x → isAlnum x)
    (hlen : acc.length < 63) (hb : isLabelByte b) (hfirst : acc = [] → isAlnum b)
    (hst : st ≠ .START) : Inv ⟨st, acc ++ [b], nm⟩ := by
  refine ⟨?_, ?_, ?_, ?_, ?_⟩
  · intro x hx
    rcases List.mem_append.1 hx with h | h
    · exact hacc x h
    · simp at h; subst h; exact hb
  · intro x hx
    cases acc with
    | nil => simp at hx; subst hx; exact hfirst rfl
    | cons a r => simp at hx; subst hx; exact hhead _ rfl
  · simp; omega
  · intro h; exact absurd h hst
  · intro _ h; simp at h

theorem inv_step (c c' : Config) (h : step 63 [45] [45] c = .next c') (hc : Inv c) :
    Inv c' := by
  obtain ⟨st, acc, nm⟩ := c
  obtain ⟨hmem, hhead, hlen, hstart, hmid⟩ := hc
  simp only at hmem hhead hlen hstart hmid
  cases nm with
  | nil => simp [step] at h
  | cons b rest =>
    cases st with
    | START =>
      have hacc : acc = [] := hstart rfl
      subst hacc
      simp only [step, afterSwitch, allowed_iff, indexAny_single] at h
      by_cases hb : isAlnum b
      · have h45 : b ∉ [45] := by simpa using isAlnum_ne_hyphen hb
        rw [if_pos ⟨hb, h45⟩] at h
        injection h with h; subst h
        exact ⟨by simp, by simp, by simp, by simp, fun _ _ x hx => by
          simp at hx; subst hx; exact hb⟩
      · rw [if_neg (fun hh => hb hh.1), if_neg hb] at h
        injection h with h; subst h
        exact ⟨by simp, by simp, by simp, by simp, by simp⟩
    | MIDDLE =>
      simp only [step, afterSwitch, allowed_iff] at h
      split_ifs at h with h1 h2 h3
      · injection h with h; subst h
        refine ⟨fun x hx => hmem x (trimRightBytes_mem hx),
          fun x hx => hhead x (trimRightBytes_head hx),
          le_trans (trimRightBytes_length_le _ _) hlen, by simp, by simp⟩
      · injection h with h; subst h
        have hl : acc.length < 63 := by omega
        refine inv_push hmem hhead hl (Or.inr rfl) ?_ (by simp)
        intro h0
        exact absurd h2 (isAlnum_not_sep (hmid rfl h0 b (by simp)))
      · injection h with h; subst h
        have hl : acc.length < 63 := by omega
        exact inv_push hmem hhead hl (Or.inl h3) (fun _ => h3) (by simp)
      · injection h with h; subst h
        refine ⟨hmem, hhead, hlen, by simp, ?_⟩
        intro _ h0
        exact absurd (hmid rfl h0 b (by simp)) h3
    | END =>
      simp only [step, afterSwitch, allowed_iff] at h
      split_ifs at h with h1 h3
      · injection h with h; subst h
        exact ⟨hmem, hhead, hlen, by simp, by simp⟩
      · injection h with h; subst h
        have hl : acc.length < 63 := by omega
        exact inv_push hmem hhead hl (Or.inl h3) (fun _ => h3) (by simp)
      · injection h with h; subst h
        exact ⟨hmem, hhead, hlen, by simp, by simp⟩

theorem inv_done (c : Config) (out : List Nat) (h : step 63 [45] [45] c = .done out)
    (hc : Inv c) : GoodLabel 63 out := by
  obtain ⟨st, acc, nm⟩ := c
  obtain ⟨hmem, hhead, hlen, -, -⟩ := hc
  simp only at hmem hhead hlen
  cases nm with
  | nil =>
    simp only [step] at h
    injection h with h; subst h
    refine ⟨fun x hx => hmem x (trimRightBytes_mem hx),
      fun x hx => hhead x (trimRightBytes_head hx),
      le_trans (trimRightBytes_length_le _ _) hlen, ?_⟩
    intro b hb
    simpa using trimRightBytes_last hb
  | cons b rest =>
    cases st <;> simp only [step, afterSwitch] at h <;> split_ifs at h

theorem loop_good (c : Config) (hc : Inv c) : GoodLabel 63 (loop 63 [45] [45] c) := by
  induction c using loop.induct 63 [45] [45] with
  | case1 c out h =>
    rw [loop]; split
    · rename_i o ho; rw [h] at ho; injection ho with ho; subst ho
      exact inv_done c out h hc
    · rename_i c2 h2; rw [h] at h2; cases h2
  | case2 c c' h ih =>
    rw [loop]; split
    · rename_i o ho; rw [h] at ho; cases ho
    · rename_i c2 h2; rw [h] at h2; injection h2 with h2; subst h2
      exact ih (inv_step c c' h hc)

theorem RFC1123_good (lowerNonASCII : List Nat → List Nat) (x : List Nat) :
    GoodLabel 63 (RFC1123 lowerNonASCII x) :=
  loop_good _ ⟨by simp, by simp, by simp, by simp, by simp⟩

/-! ## The permissive sanitizer on input that needs no cut -/

theorem loop_next {maxlen : Int} {left right : List Nat} {c c' : Config}
    (h : step maxlen left right c = .next c') :
    loop maxlen left right c = loop maxlen left right c' := by
  rw [loop]; split
  · rename_i o ho; rw [h] at ho; cases ho
  · rename_i c2 h2; rw [h] at h2; injection h2 with h2; subst h2; rfl

theorem loop_done {maxlen : Int} {left right : List Nat} {c : Config} {out : List Nat}
    (h : step maxlen left right c = .done out) : loop maxlen left right c = out := by
  rw [loop]; split
  · rename_i o ho; rw [h] at ho; injection ho with ho; exact ho.symm
  · rename_i c2 h2; rw [h] at h2; cases h2

/-- In `MIDDLE`, input of letters, digits and separators that fits below the
limit is copied byte by byte, each separator as one hyphen. -/
theorem loop_middle_copy (right : List Nat) (maxlen : Nat) :
    ∀ (name acc : List Nat), (∀ b ∈ name, isAlnum b ∨ isSep b) →
      acc.length + name.length ≤ maxlen →
      loop maxlen [45] right ⟨.MIDDLE, acc, name⟩ =
        trimRightBytes (acc ++ name.map hyphenate) right := by
  intro name
  induction name with
  | nil =>
    intro acc _ _
    have hstep : step maxlen [45] right ⟨.MIDDLE, acc, []⟩ =
        .done (trimRightBytes acc right) := by simp [step]
    rw [loop_done hstep]
    simp
  | cons b rest ih =>
    intro acc hall hlen
    have hl : ¬ ((acc.length : Int) ≥ (maxlen : Int)) := by
      simp only [List.length_cons] at hlen; omega
    by_cases hs : b = 45 ∨ b = 95 ∨ b = 46
    · have hstep : step maxlen [45] right ⟨.MIDDLE, acc, b :: rest⟩ =
          .next ⟨.MIDDLE, acc ++ [45], rest⟩ := by
        simp only [step, if_neg hl, if_pos hs]
      rw [loop_next hstep, ih (acc ++ [45]) (fun x hx => hall x (List.mem_cons_of_mem _ hx))
        (by simp only [List.length_append, List.length_cons, List.length_nil] at hlen ⊢; omega)]
      simp [hyphenate, hs]
    · have ha : isAlnum b := by
        rcases hall b (List.mem_cons_self _ _) with h | h
        · exact h
        · exact absurd h hs
      have hstep : step maxlen [45] right ⟨.MIDDLE, acc, b :: rest⟩ =
          .next ⟨.MIDDLE, acc ++ [b], rest⟩ := by
        simp only [step, afterSwitch, if_neg hl, if_neg hs, if_pos ((allowed_iff b).2 ha)]
      rw [loop_next hstep, ih (acc ++ [b]) (fun x hx => hall x (List.mem_cons_of_mem _ hx))
        (by simp only [List.length_append, List.length_cons, List.length_nil] at hlen ⊢; omega)]
      simp [hyphenate, hs]

theorem toLower_id (lowerNonASCII : List Nat → List Nat) (x : List Nat)
    (hall : ∀ b ∈ x, isAlnum b ∨ isSep b) : ToLower lowerNonASCII x = x := by
  have hascii : x.all (fun c => decide (c < 128)) = true := by
    rw [List.all_eq_true]
    intro b hb
    have := hall b hb
    unfold isAlnum isLower isDigit isSep at this
    simp only [decide_eq_true_eq]; omega
  simp only [ToLower, hascii, if_true]
  conv_rhs => rw [← List.map_id x]
  apply List.map_congr_left
  intro b hb
  have := hall b hb
  unfold isAlnum isLower isDigit isSep at this
  have hn : ¬ (65 ≤ b ∧ b ≤ 90) := by omega
  simp [hn]

/-- `RFC1123` on a name of at most 63 letters, digits and separators that
starts with a letter or digit. -/
theorem RFC1123_clean (lowerNonASCII : List Nat → List Nat) (x : List Nat)
    (hall : ∀ b ∈ x, isAlnum b ∨ isSep b) (hlen : x.length ≤ 63)
    (hhead : ∀ b, x.head? = some b → isAlnum b) :
    RFC1123 lowerNonASCII x = trimRightBytes (x.map hyphenate) [45] := by
  simp only [RFC1123, stringTrimmerFSM, toLower_id lowerNonASCII x hall]
  cases x with
  | nil =>
    have hstep : step 63 [45] [45] ⟨.START, [], []⟩ =
        .done (trimRightBytes [] [45]) := by simp [step]
    rw [loop_done hstep]
    simp
  | cons b rest =>
    have ha : isAlnum b := hhead b (by simp)
    have h45 : b ∉ [45] := by simpa using isAlnum_ne_hyphen ha
    have hstep : step 63 [45] [45] ⟨.START, [], b :: rest⟩ =
        .next ⟨.MIDDLE, [], b :: rest⟩ := by
      simp only [step, allowed_iff, indexAny_single]
      rw [if_pos ⟨ha, h45⟩]
    rw [loop_next hstep]
    have := loop_middle_copy [45] 63 (b :: rest) [] hall (by simpa using hlen)
    simpa using this

theorem hyphenate_label {b : Nat} (h : isLabelByte b) : hyphenate b = b := by
  unfold hyphenate
  unfold isLabelByte isAlnum isLower isDigit at h
  split_ifs with hs
  · omega
  · rfl

theorem map_hyphenate_label {y : List Nat} (h : ∀ b ∈ y, isLabelByte b) :
    y.map hyphenate = y := by
  conv_rhs => rw [← List.map_id y]
  apply List.map_congr_left
  intro b hb
  simpa using hyphenate_label (h b hb)

/-! ## Claims about the permissive sanitizer -/

/-- C1: for every input byte string `x`, `RFC1123(x)` (`stringTrimmerFSM` with
`maxlen` 63) is a label of at most 63 bytes, whatever the non-ASCII path of
`bytes.ToLower` does. -/
theorem RFC1123_length_le_63 (lowerNonASCII : List Nat → List Nat) (x : List Nat) :
    (RFC1123 lowerNonASCII x).length ≤ 63 :=
  (RFC1123_good lowerNonASCII x).2.2.1

/-- C2: the permissive sanitizer is stable under re-application:
`RFC1123(RFC1123(x)) = RFC1123(x)` for every input `x`. -/
theorem RFC1123_idempotent (lowerNonASCII : List Nat → List Nat) (x : List Nat) :
    RFC1123 lowerNonASCII (RFC1123 lowerNonASCII x) = RFC1123 lowerNonASCII x := by
  obtain ⟨hmem, hhead, hlen, hlast⟩ := RFC1123_good lowerNonASCII x
  rw [RFC1123_clean lowerNonASCII (RFC1123 lowerNonASCII x)
    (fun b hb => (hmem b hb).imp id (fun h => Or.inl h)) hlen hhead,
    map_hyphenate_label hmem]
  exact trimRightBytes_id (fun b hb => by simpa using hlast b hb)

/-- C8: for every input `x`, every byte of `RFC1123(x)` is a lowercase
letter, a digit or a hyphen, and when `RFC1123(x)` is non-empty its first byte
and its last byte are each a lowercase letter or a digit. -/
theorem RFC1123_conforms (lowerNonASCII : List Nat → List Nat) (x : List Nat) :
    (∀ b ∈ RFC1123 lowerNonASCII x, isLower b ∨ isDigit b ∨ b = 45) ∧
    (∀ b, (RFC1123 lowerNonASCII x).head? = some b → isLower b ∨ isDigit b) ∧
    (∀ b, (RFC1123 lowerNonASCII x).getLast? = some b → isLower b ∨ isDigit b) := by
  obtain ⟨hmem, hhead, -, hlast⟩ := RFC1123_good lowerNonASCII x
  refine ⟨fun b hb => ?_, fun b hb => hhead b hb, fun b hb => ?_⟩
  · rcases hmem b hb with (h | h) | h
    · exact Or.inl h
    · exact Or.inr (Or.inl h)
    · exact Or.inr (Or.inr h)
  · rcases hmem b (List.mem_of_getLast?_eq_some hb) with h | h
    · exact h
    · exact absurd h (hlast b hb)

/-- C9, counterexample: a run of separators is not collapsed.  `RFC1123("a--b")`
and `RFC1123("a_.b")` are both `"a--b"`, which holds two consecutive hyphens,
and not `"a-b"`. -/
theorem RFC1123_run_not_collapsed :
    RFC1123 id [97, 45, 45, 98] = [97, 45, 45, 98] ∧
    RFC1123 id [97, 95, 46, 98] = [97, 45, 45, 98] ∧
    [45, 45] <:+: RFC1123 id [97, 45, 45, 98] := by
  have h1 : RFC1123 id [97, 45, 45, 98] = [97, 45, 45, 98] :=
    loop_of_loopN _ _ _ 7 _ _ (by decide)
  have h2 : RFC1123 id [97, 95, 46, 98] = [97, 45, 45, 98] :=
    loop_of_loopN _ _ _ 7 _ _ (by decide)
  refine ⟨h1, h2, ?_⟩
  rw [h1]
  exact ⟨[97], [98], rfl⟩

/-- C9, amended: the permissive sanitizer writes one hyphen for each separator
`-`, `_`, `.` and does not collapse runs: for every input `x` of at most 63
bytes, all letters, digits or separators, that begins and ends with a letter or
digit, `RFC1123(x)` is `x` with each separator replaced by a hyphen. -/
theorem RFC1123_hyphen_per_separator (lowerNonASCII : List Nat → List Nat) (x : List Nat)
    (hall : ∀ b ∈ x, isAlnum b ∨ isSep b) (hlen : x.length ≤ 63)
    (hhead : ∀ b, x.head? = some b → isAlnum b)
    (hlast : ∀ b, x.getLast? = some b → isAlnum b) :
    RFC1123 lowerNonASCII x = x.map hyphenate := by
  rw [RFC1123_clean lowerNonASCII x hall hlen hhead]
  apply trimRightBytes_id
  intro b hb
  rw [List.getLast?_map] at hb
  cases hx : x.getLast? with
  | none => rw [hx] at hb; simp at hb
  | some a =>
    rw [hx] at hb
    simp only [Option.map_some', Option.some.injEq] at hb
    have ha := hlast a hx
    have hna := isAlnum_not_sep ha
    have : hyphenate a = a := by simp [hyphenate, hna]
    rw [this] at hb; subst hb
    simpa using isAlnum_ne_hyphen ha

/-- C9, witness: `"a_.b"` meets the hypotheses and becomes `"a--b"`. -/
theorem RFC1123_hyphen_per_separator_witness :
    RFC1123 id [97, 95, 46, 98] = List.map hyphenate [97, 95, 46, 98] :=
  RFC1123_hyphen_per_separator id [97, 95, 46, 98] (by decide) (by decide)
    (by simp; decide) (by simp; decide)

/-! ## The strict sanitizer -/

theorem min_le_fst (a b : Int) : min a b ≤ a := by
  unfold min; split_ifs <;> omega

theorem min_le_snd (a b : Int) : min a b ≤ b := by
  unfold min; split_ifs <;> omega

/-- A slice expression `s[:hi]` that does not panic has length `hi`. -/
theorem upto_len {s t : Slice} {hi : Int} (h : s.upto hi = some t) : t.len = hi := by
  unfold Slice.upto at h
  split_ifs at h with hb
  injection h with h; subst h
  simp only [Slice.len, Slice.cap] at hb ⊢
  rw [List.length_take, List.length_append]
  omega

theorem TrimRight_len_le (s : Slice) (cutset : List Nat) : (TrimRight s cutset).len ≤ s.len := by
  unfold TrimRight
  simp only [Slice.len]
  exact_mod_cast trimRightBytes_length_le s.data cutset

theorem trimCut_len (l : Slice) (maxlen : Int) (left right out : List Nat)
    (h : trimCut l maxlen left right = some out) :
    (out.length : Int) ≤ min (TrimLeft l left).len maxlen := by
  unfold trimCut at h
  simp only at h
  split at h
  · cases h
  · rename_i cut hcut
    have hcl := upto_len hcut
    have hhead := TrimRight_len_le cut right
    have hd : ((TrimRight cut right).data.length : Int) = (TrimRight cut right).len := rfl
    split_ifs at h with h1
    · injection h with h; subst h
      omega
    · split at h
      · cases h
      · rename_i rest hrest
        split_ifs at h with h2
        · split at h
          · cases h
          · rename_i fill hfill
            have hfl := upto_len hfill
            have hf : (fill.data.length : Int) = fill.len := rfl
            injection h with h; subst h
            rw [List.length_append]
            push_cast
            omega
        · injection h with h; subst h
          omega

/-! ## Claims about the strict sanitizer -/

/-- C3, at the input of interest `'a'`, 23 hyphens, `'b'`, 22 hyphens, `'c'`:
`RFC952` backfills the head `"a"` from the tail and returns `"ab"` followed by
22 hyphens; applied to that, it returns `"ab"`. -/
theorem RFC952_reapplied :
    RFC952 (97 :: List.replicate 23 45 ++ 98 :: List.replicate 22 45 ++ [99]) =
      some (97 :: 98 :: List.replicate 22 45) ∧
    RFC952 (97 :: 98 :: List.replicate 22 45) = some [97, 98] := by
  constructor <;> decide

/-- C4, at the input of interest `'a'`, 23 hyphens, `'b'`: `tail` is `"b"` with
capacity 1 and `tail[:23]` is out of range, so `RFC952` panics. -/
theorem RFC952_panics : RFC952 (97 :: List.replicate 23 45 ++ [98]) = none := by
  decide

/-- C5: whenever `RFC952` returns a label, the label has at most 24 bytes; and
whenever `trimCut(l, maxlen, left, right)` returns, with `maxlen >= 0`, it
returns at most `min(len(TrimLeft(l, left)), maxlen)` bytes. -/
theorem RFC952_length_le_24 :
    (∀ x out : List Nat, RFC952 x = some out → out.length ≤ 24) ∧
    (∀ (l : Slice) (maxlen : Int) (left right out : List Nat), 0 ≤ maxlen →
      trimCut l maxlen left right = some out →
      (out.length : Int) ≤ min (TrimLeft l left).len maxlen) := by
  refine ⟨fun x out h => ?_, fun l maxlen left right out _ h =>
    trimCut_len l maxlen left right out h⟩
  have h1 := trimCut_len _ _ _ _ _ h
  have h2 := min_le_snd
    (TrimLeft (Map mapping x) [45, 48, 49, 50, 51, 52, 53, 54, 55, 56, 57]).len 24
  omega

/-- C5, witness: `RFC952` returns on 26 letters `a` (the first 24 of them), and
`trimCut` returns on the slice `"-ab-"` with capacity 6 and `maxlen` 2. -/
theorem RFC952_length_le_24_witness :
    RFC952 (List.replicate 26 97) = some (List.replicate 24 97) ∧
    (List.replicate 24 97).length ≤ 24 ∧
    trimCut ⟨[45, 97, 98, 45], [0, 0]⟩ 2 [45] [45] = some [97, 98] ∧
    (([97, 98] : List Nat).length : Int) ≤ min (TrimLeft ⟨[45, 97, 98, 45], [0, 0]⟩ [45]).len 2 :=
  ⟨by decide, RFC952_length_le_24.1 (List.replicate 26 97) _ (by decide), by decide,
    RFC952_length_le_24.2 ⟨[45, 97, 98, 45], [0, 0]⟩ 2 [45] [45] [97, 98] (by decide) (by decide)⟩

/-- C6, at 22 letters `a` followed by `"--b-c"`: the head is cut to the 22
letters and backfilled with `tail[:2]`, which is `"b-"`: the label `RFC952`
returns ends with a hyphen. -/
theorem RFC952_ends_with_hyphen :
    RFC952 (List.replicate 22 97 ++ [45, 45, 98, 45, 99]) =
      some (List.replicate 22 97 ++ [98, 45]) := by
  decide

/-- C7, at 22 letters `a` followed by `"--b "`: the space is deleted by
`bytes.Map`, which leaves one zero byte of spare capacity behind `"b"`;
`tail[:2]` reaches into it, and the label `RFC952` returns ends with a zero
byte. -/
theorem RFC952_returns_zero_byte :
    RFC952 (List.replicate 22 97 ++ [45, 45, 98, 32]) =
      some (List.replicate 22 97 ++ [98, 0]) := by
  decide

/-! ## `DomainFrag`: what a join of labels looks like -/

theorem foldl_addLabel (label : Func) (parts : List (List Nat)) :
    ∀ acc : List (List Nat),
      parts.foldl (addLabel label) acc = acc ++ keptLabels label parts := by
  induction parts with
  | nil => intro acc; simp [keptLabels]
  | cons p rest ih =>
    intro acc
    rw [List.foldl_cons, ih]
    by_cases h : label p = []
    · simp [addLabel, keptLabels, h]
    · simp [addLabel, keptLabels, h]

theorem keptLabels_sepFree (label : Func) (sep : List Nat) (parts : List (List Nat))
    (hf : ∀ p, ∀ b ∈ label p, b ∉ sep) : SepFree sep (keptLabels label parts) := by
  intro l hl
  simp only [keptLabels, List.mem_filter, List.mem_map, decide_eq_true_eq] at hl
  obtain ⟨⟨p, -, rfl⟩, hne⟩ := hl
  exact ⟨hne, hf p⟩

theorem keptLabels_eq_nil (label : Func) (parts : List (List Nat)) :
    keptLabels label parts = [] ↔ ∀ p ∈ parts, label p = [] := by
  simp [keptLabels, List.filter_eq_nil_iff]

/-- A join of sep-free labels starts with a byte that is not in `sep`. -/
theorem join_head (sep : List Nat) :
    ∀ ls : List (List Nat), SepFree sep ls → ls ≠ [] →
      ∃ c t, Join ls sep = c :: t ∧ c ∉ sep := by
  intro ls hls hne
  cases ls with
  | nil => exact absurd rfl hne
  | cons a rest =>
    obtain ⟨ha, hfree⟩ := hls a (List.mem_cons_self _ _)
    cases a with
    | nil => exact absurd rfl ha
    | cons c t =>
      cases rest with
      | nil => exact ⟨c, t, rfl, hfree c (List.mem_cons_self _ _)⟩
      | cons b r =>
        exact ⟨c, t ++ sep ++ Join (b :: r) sep, by simp [Join],
          hfree c (List.mem_cons_self _ _)⟩

/-- A join of sep-free labels ends with a byte that is not in `sep`. -/
theorem join_last (sep : List Nat) :
    ∀ ls : List (List Nat), SepFree sep ls → ls ≠ [] →
      ∃ t c, Join ls sep = t ++ [c] ∧ c ∉ sep := by
  intro ls
  induction ls with
  | nil => intro _ hne; exact absurd rfl hne
  | cons a rest ih =>
    intro hls _
    cases rest with
    | nil =>
      obtain ⟨ha, hfree⟩ := hls a (List.mem_cons_self _ _)
      rcases List.eq_nil_or_concat a with h | ⟨t, c, h⟩
      · exact absurd h ha
      · refine ⟨t, c, by simp [Join, h], hfree c (by simp [h])⟩
    | cons b r =>
      obtain ⟨t, c, ht, hc⟩ :=
        ih (fun l hl => hls l (List.mem_cons_of_mem _ hl)) (by simp)
      exact ⟨a ++ sep ++ t, c, by simp [Join, ht], hc⟩

/-- Where a sublist of consecutive elements of `a ++ b` can lie: inside `a`,
inside `b`, or across the seam. -/
theorem sub_append_cases {w a b : List Nat} (h : w <:+: a ++ b) :
    w <:+: a ∨ w <:+: b ∨
      ∃ u v, w = u ++ v ∧ u ≠ [] ∧ v ≠ [] ∧ u <:+ a ∧ v <+: b := by
  obtain ⟨s, t, hst⟩ := h
  rcases List.append_eq_append_iff.1 hst with ⟨a', h1, _⟩ | ⟨c', h1, h2⟩
  · left
    exact ⟨s, a', h1.symm⟩
  · rcases List.append_eq_append_iff.1 h1 with ⟨a2, h3, h4⟩ | ⟨c2, h3, h4⟩
    · by_cases ha2 : a2 = []
      · subst ha2
        right; left
        simp only [List.nil_append] at h4
        exact ⟨[], t, by rw [h2, h4]; simp⟩
      · by_cases hc' : c' = []
        · subst hc'
          left
          simp only [List.append_nil] at h4
          exact ⟨s, [], by rw [h3, h4]; simp⟩
        · right; right
          exact ⟨a2, c', h4, ha2, hc', ⟨s, h3.symm⟩, ⟨t, h2.symm⟩⟩
    · right; left
      exact ⟨c2, t, by rw [h2, h4]⟩

/-- In a join of sep-free labels, consecutive bytes that all belong to `sep`
are at most `len(sep)` many. -/
theorem join_run_le (sep : List Nat) :
    ∀ ls : List (List Nat), SepFree sep ls → ∀ w : List Nat, w <:+: Join ls sep →
      (∀ b ∈ w, b ∈ sep) → w.length ≤ sep.length := by
  have inside : ∀ (a w : List Nat), (∀ b ∈ a, b ∉ sep) → w <:+: a →
      (∀ b ∈ w, b ∈ sep) → w = [] := by
    intro a w ha hw hsep
    obtain ⟨s, t, hst⟩ := hw
    cases w with
    | nil => rfl
    | cons c r =>
      exact absurd (hsep c (List.mem_cons_self _ _)) (ha c (by rw [← hst]; simp))
  intro ls
  induction ls with
  | nil =>
    intro _ w hw _
    obtain ⟨s, t, hst⟩ := hw
    simp only [Join, List.append_eq_nil] at hst
    simp [hst.1.2]
  | cons a rest ih =>
    intro hls w hw hsep
    obtain ⟨-, hfree⟩ := hls a (List.mem_cons_self _ _)
    cases rest with
    | nil =>
      simp [inside a w hfree hw hsep]
    | cons b r =>
      have hrest : SepFree sep (b :: r) := fun l hl => hls l (List.mem_cons_of_mem _ hl)
      have hJ : Join (a :: b :: r) sep = a ++ (sep ++ Join (b :: r) sep) := by
        simp [Join]
      rw [hJ] at hw
      rcases sub_append_cases hw with h | h | ⟨u, v, rfl, hu, -, ⟨s, hs⟩, -⟩
      · simp [inside a w hfree h hsep]
      · rcases sub_append_cases h with h' | h' | ⟨u, v, rfl, -, hv, -, ⟨t, ht⟩⟩
        · obtain ⟨s, t, hst⟩ := h'
          have := congrArg List.length hst
          simp only [List.length_append] at this
          omega
        · exact ih hrest w h' hsep
        · obtain ⟨c, t', hc, hcs⟩ := join_head sep (b :: r) hrest (by simp)
          cases v with
          | nil => exact absurd rfl hv
          | cons d v' =>
            rw [hc] at ht
            simp only [List.cons_append, List.cons.injEq] at ht
            exact absurd (hsep d (by simp)) (ht.1 ▸ hcs)
      · cases u with
        | nil => exact absurd rfl hu
        | cons d u' =>
          exact absurd (hsep d (by simp)) (hfree d (by rw [← hs]; simp))

/-! ## Claims about `DomainFrag` -/

/-- C10, counterexample: with the two-byte separator `"aa"` and the label
function that always returns `"a"` (which never contains `"aa"`),
`DomainFrag("aa", "aa", f)` joins the two labels to `"aaaa"`, which begins and
ends with the separator and contains two adjacent separators. -/
theorem DomainFrag_two_byte_sep :
    ([97, 97] : List Nat) ≠ [] ∧
    (∀ p : List Nat, ¬ [97, 97] <:+: (fun _ => [97]) p) ∧
    DomainFrag [97, 97] [97, 97] (fun _ => [97]) = [97, 97, 97, 97] ∧
    [97, 97] <+: DomainFrag [97, 97] [97, 97] (fun _ => [97]) ∧
    [97, 97] <:+ DomainFrag [97, 97] [97, 97] (fun _ => [97]) ∧
    ([97, 97] ++ [97, 97]) <:+: DomainFrag [97, 97] [97, 97] (fun _ => [97]) := by
  have h : DomainFrag [97, 97] [97, 97] (fun _ => [97]) = [97, 97, 97, 97] := by decide
  refine ⟨by decide, fun p hp => ?_, h, ?_, ?_, ?_⟩
  · obtain ⟨s, t, hst⟩ := hp
    have := congrArg List.length hst
    simp only [List.length_append, List.length_cons, List.length_nil] at this
    omega
  · rw [h]; exact ⟨[97, 97], rfl⟩
  · rw [h]; exact ⟨[97, 97], rfl⟩
  · rw [h]; exact ⟨[], [], rfl⟩

/-- C10, amended: for every name, every non-empty separator `sep` and every
label function `f` whose outputs hold no byte of `sep` (for a one-byte `sep`:
never contain `sep`; in particular `f = RFC1123` with `sep = "."`),
`DomainFrag(name, sep, f)` is the `sep`-joined list of the non-empty values
`f(p)`, in order, for `p` over the parts of `name` split on `sep`; it never
begins or ends with `sep`, never contains two adjacent separators, and is
empty exactly when every part sanitizes to empty. -/
theorem DomainFrag_joins_kept_labels (name sep : List Nat) (f : Func) (hsep : sep ≠ [])
    (hf : ∀ p, ∀ b ∈ f p, b ∉ sep) :
    DomainFrag name sep f =
      Join (((Split name sep).map f).filter (fun l => decide (l ≠ []))) sep ∧
    ¬ sep <+: DomainFrag name sep f ∧
    ¬ sep <:+ DomainFrag name sep f ∧
    ¬ (sep ++ sep) <:+: DomainFrag name sep f ∧
    (DomainFrag name sep f = [] ↔ ∀ p ∈ Split name sep, f p = []) := by
  have hD : DomainFrag name sep f = Join (keptLabels f (Split name sep)) sep := by
    simp [DomainFrag, foldl_addLabel]
  have hfree := keptLabels_sepFree f sep (Split name sep) hf
  obtain ⟨s0, srest, hs0⟩ := List.exists_cons_of_ne_nil hsep
  refine ⟨hD, ?_, ?_, ?_, ?_⟩
  · rintro ⟨t, ht⟩
    by_cases hk : keptLabels f (Split name sep) = []
    · rw [hD, hk] at ht
      simp only [Join, List.append_eq_nil] at ht
      exact hsep ht.1
    · obtain ⟨c, t', hc, hcs⟩ := join_head sep _ hfree hk
      rw [hD, hc, hs0] at ht
      simp only [List.cons_append, List.cons.injEq] at ht
      exact hcs (by rw [hs0, ← ht.1]; simp)
  · rintro ⟨t, ht⟩
    by_cases hk : keptLabels f (Split name sep) = []
    · rw [hD, hk] at ht
      simp only [Join, List.append_eq_nil] at ht
      exact hsep ht.2
    · obtain ⟨t', c, hc, hcs⟩ := join_last sep _ hfree hk
      rcases List.eq_nil_or_concat sep with h | ⟨si, sl, h⟩
      · exact hsep h
      · rw [List.concat_eq_append] at h
        rw [hD, hc, h, ← List.append_assoc] at ht
        have := List.append_inj_right' ht rfl
        simp only [List.cons.injEq, and_true] at this
        exact hcs (by rw [h, ← this]; simp)
  · intro hw
    rw [hD] at hw
    have := join_run_le sep _ hfree (sep ++ sep) hw (by
      intro b hb
      rcases List.mem_append.1 hb with h | h <;> exact h)
    have hpos : 0 < sep.length := List.length_pos.2 hsep
    simp only [List.length_append] at this
    omega
  · rw [hD, ← keptLabels_eq_nil]
    constructor
    · intro hj
      by_contra hk
      obtain ⟨c, t', hc, -⟩ := join_head sep _ hfree hk
      rw [hc] at hj
      cases hj
    · intro hk
      rw [hk]; rfl

/-- C10, witness: `name = "a.._b."`, `sep = "."` and `f = RFC1123`, whose
outputs hold no dot. -/
theorem DomainFrag_joins_kept_labels_witness :
    DomainFrag [97, 46, 46, 95, 98, 46] [46] (RFC1123 id) =
      Join (((Split [97, 46, 46, 95, 98, 46] [46]).map (RFC1123 id)).filter
        (fun l => decide (l ≠ []))) [46] ∧
    ¬ [46] <+: DomainFrag [97, 46, 46, 95, 98, 46] [46] (RFC1123 id) ∧
    ¬ [46] <:+ DomainFrag [97, 46, 46, 95, 98, 46] [46] (RFC1123 id) ∧
    ¬ ([46] ++ [46]) <:+: DomainFrag [97, 46, 46, 95, 98, 46] [46] (RFC1123 id) ∧
    (DomainFrag [97, 46, 46, 95, 98, 46] [46] (RFC1123 id) = [] ↔
      ∀ p ∈ Split [97, 46, 46, 95, 98, 46] [46], RFC1123 id p = []) :=
  DomainFrag_joins_kept_labels [97, 46, 46, 95, 98, 46] [46] (RFC1123 id) (by decide)
    (fun p b hb => by
      have h := (RFC1123_good id p).1 b hb
      unfold isLabelByte isAlnum isLower isDigit at h
      simp only [List.mem_singleton]
      omega)

/-! ## The strict sanitizer when the cut needs no backfill -/

theorem Map_mapping_data (x : List Nat) : (Map mapping x).data = normalForm x := by
  simp only [Map, normalForm]
  apply List.filterMap_congr
  intro b _
  unfold mapping normalByte isLower isDigit
  split_ifs <;> first | omega | (simp; try omega)

/-- When the first `maxlen` bytes of the left-trimmed label do not end in the
right cutset, `trimCut` returns them. -/
theorem trimCut_plain (l : Slice) (maxlen : Nat) (left right : List Nat)
    (h : trimRightBytes ((TrimLeft l left).data.take maxlen) right =
      (TrimLeft l left).data.take maxlen) :
    trimCut l maxlen left right = some ((TrimLeft l left).data.take maxlen) := by
  have hk : ∃ k : Nat, min (TrimLeft l left).len maxlen = (k : Int) ∧
      k ≤ (TrimLeft l left).data.length ∧
      (TrimLeft l left).data.take k = (TrimLeft l left).data.take maxlen ∧
      (TrimLeft l left).data.drop k = (TrimLeft l left).data.drop maxlen := by
    rcases Nat.lt_or_ge (TrimLeft l left).data.length maxlen with h1 | h1
    · refine ⟨(TrimLeft l left).data.length, ?_, le_refl _, ?_, ?_⟩
      · unfold min Slice.len
        rw [if_pos (by exact_mod_cast h1)]
      · rw [List.take_of_length_le (le_refl _), List.take_of_length_le (le_of_lt h1)]
      · rw [List.drop_of_length_le (le_refl _), List.drop_of_length_le (le_of_lt h1)]
    · refine ⟨maxlen, ?_, h1, rfl, rfl⟩
      unfold min Slice.len
      have hnot : ¬ ((TrimLeft l left).data.length : Int) < (maxlen : Int) := by
        intro hh
        have : (TrimLeft l left).data.length < maxlen := by exact_mod_cast hh
        omega
      rw [if_neg hnot]
  obtain ⟨k, hsize, hle, htake, hdrop⟩ := hk
  have hcut : (TrimLeft l left).upto (min (TrimLeft l left).len maxlen) =
      some ⟨(TrimLeft l left).data.take maxlen,
        (TrimLeft l left).data.drop maxlen ++ (TrimLeft l left).spare⟩ := by
    rw [hsize]
    unfold Slice.upto Slice.cap
    rw [if_pos ⟨by omega, by omega⟩]
    simp only [Int.toNat_ofNat, Option.some.injEq, Slice.mk.injEq]
    exact ⟨by rw [List.take_append_of_le_length hle, htake],
      by rw [List.drop_append_of_le_length hle, hdrop]⟩
  unfold trimCut
  simp only [hcut]
  have hlen : ((List.take maxlen (TrimLeft l left).data).length : Int) =
      min (TrimLeft l left).len maxlen := by
    rw [hsize, ← htake, List.length_take]
    simp [hle]
  have hT : (TrimRight ⟨(TrimLeft l left).data.take maxlen,
      (TrimLeft l left).data.drop maxlen ++ (TrimLeft l left).spare⟩ right).data =
      (TrimLeft l left).data.take maxlen := h
  have h1 : (TrimRight ⟨(TrimLeft l left).data.take maxlen,
      (TrimLeft l left).data.drop maxlen ++ (TrimLeft l left).spare⟩ right).len =
      min (TrimLeft l left).len maxlen := by
    rw [← hlen]
    simp only [Slice.len, hT]
  rw [if_pos h1, hT]

theorem TrimLeft_data (s : Slice) (cutset : List Nat) :
    (TrimLeft s cutset).data = trimLeftBytes s.data cutset := by
  unfold TrimLeft
  split_ifs with h
  · rw [h]; rfl
  · rfl

theorem RFC952_plain (x : List Nat)
    (h : ∀ b, ((trimLeftBytes (normalForm x) digitsAndHyphen).take 24).getLast? = some b →
      b ≠ 45) :
    RFC952 x = some ((trimLeftBytes (normalForm x) digitsAndHyphen).take 24) := by
  have hd : (TrimLeft (Map mapping x) digitsAndHyphen).data =
      trimLeftBytes (normalForm x) digitsAndHyphen := by
    rw [TrimLeft_data, Map_mapping_data]
  have := trimCut_plain (Map mapping x) 24 digitsAndHyphen [45] (by
    rw [hd]
    exact trimRightBytes_id (fun b hb => by simpa using h b hb))
  rw [hd] at this
  exact this

theorem normalForm_letters (x : List Nat) (hx : ∀ b ∈ x, isLetter b ∨ b = 32) :
    normalForm x = (x.filter (fun b => decide (b ≠ 32))).map lowerByte := by
  induction x with
  | nil => rfl
  | cons b rest ih =>
    have hrest := ih (fun c hc => hx c (List.mem_cons_of_mem _ hc))
    have hb := hx b (List.mem_cons_self _ _)
    unfold normalForm at hrest ⊢
    by_cases h32 : b = 32
    · subst h32
      simp [normalByte, isLower, isDigit, hrest]
    · have hl : isLetter b := hb.resolve_right h32
      have hn : normalByte b = some (lowerByte b) := by
        unfold isLetter at hl
        unfold normalByte lowerByte isLower isDigit
        split_ifs <;> first | rfl | omega
      simp [hn, h32, hrest]

/-! ## Claims about the strict sanitizer: reference behaviour -/

/-- C11: for every ASCII input `x`, let `m` be the normal form of `x` (letters
lowercased, digits kept, each of `-`, `.`, `_` replaced by a hyphen, every
other byte deleted) stripped of leading digits and hyphens, and `p` the first
`min(24, len m)` bytes of `m`; if `p` does not end with a hyphen then
`RFC952(x) = p`.  In particular an input of letters and spaces yields its
letters lowercased, without the spaces, cut to the first 24. -/
theorem RFC952_reference :
    (∀ x : List Nat, (∀ b ∈ x, b < 128) →
      (∀ b, ((trimLeftBytes (normalForm x) digitsAndHyphen).take 24).getLast? = some b →
        b ≠ 45) →
      RFC952 x = some ((trimLeftBytes (normalForm x) digitsAndHyphen).take 24)) ∧
    (∀ x : List Nat, (∀ b ∈ x, isLetter b ∨ b = 32) →
      RFC952 x = some (((x.filter (fun b => decide (b ≠ 32))).map lowerByte).take 24)) := by
  refine ⟨fun x _ h => RFC952_plain x h, fun x hx => ?_⟩
  have hlow : ∀ b ∈ (x.filter (fun b => decide (b ≠ 32))).map lowerByte, isLower b := by
    intro b hb
    simp only [List.mem_map, List.mem_filter, decide_eq_true_eq] at hb
    obtain ⟨a, ⟨ha, h32⟩, rfl⟩ := hb
    have hl : isLetter a := (hx a ha).resolve_right h32
    unfold isLetter at hl
    unfold lowerByte isLower
    split_ifs <;> omega
  have hm : trimLeftBytes (normalForm x) digitsAndHyphen =
      (x.filter (fun b => decide (b ≠ 32))).map lowerByte := by
    rw [normalForm_letters x hx]
    cases hcs : (x.filter (fun b => decide (b ≠ 32))).map lowerByte with
    | nil => rfl
    | cons c t =>
      have hc : isLower c := hlow c (by rw [hcs]; exact List.mem_cons_self _ _)
      unfold isLower at hc
      have : c ∉ digitsAndHyphen := by
        simp only [digitsAndHyphen, List.mem_cons, List.mem_nil_iff, or_false]
        omega
      simp [trimLeftBytes, List.dropWhile, this]
  have := RFC952_plain x (by
    intro b hb
    rw [hm] at hb
    have hmem := List.mem_of_getLast?_eq_some hb
    have hl := hlow b (List.mem_of_mem_take hmem)
    unfold isLower at hl
    omega)
  rw [hm] at this
  exact this

/-- C11, witness: `"9-My_App.v2"` becomes `"my-app-v2"`, and
`"chronos with a space AND MIXED CASE"` becomes `"chronoswithaspaceandmixe"`. -/
theorem RFC952_reference_witness :
    RFC952 [57, 45, 77, 121, 95, 65, 112, 112, 46, 118, 50] =
      some [109, 121, 45, 97, 112, 112, 45, 118, 50] ∧
    RFC952 [99, 104, 114, 111, 110, 111, 115, 32, 119, 105, 116, 104, 32, 97, 32, 115, 112,
      97, 99, 101, 32, 65, 78, 68, 32, 77, 73, 88, 69, 68, 32, 67, 65, 83, 69] =
    some [99, 104, 114, 111, 110, 111, 115, 119, 105, 116, 104, 97, 115, 112, 97, 99, 101,
      97, 110, 100, 109, 105, 120, 101] := by
  have h1 := RFC952_reference.1 [57, 45, 77, 121, 95, 65, 112, 112, 46, 118, 50]
    (by decide) (by decide)
  have h2 := RFC952_reference.2 [99, 104, 114, 111, 110, 111, 115, 32, 119, 105, 116, 104, 32,
    97, 32, 115, 112, 97, 99, 101, 32, 65, 78, 68, 32, 77, 73, 88, 69, 68, 32, 67, 65, 83, 69]
    (by decide)
  rw [h1, h2]
  exact ⟨by decide, by decide⟩

/-! ## The permissive sanitizer: termination and the `END` state -/

/-- An iteration that does not return uses up input or moves the state on. -/
theorem step_lex (maxlen : Int) (left right : List Nat) (c c' : Config)
    (h : step maxlen left right c = .next c') :
    c'.name.length < c.name.length ∨
      (c'.name.length = c.name.length ∧ statesLeft c'.state < statesLeft c.state) := by
  obtain ⟨st, acc, nm⟩ := c
  cases nm with
  | nil => simp [step] at h
  | cons b rest =>
    cases st <;> simp only [step, afterSwitch] at h <;> split_ifs at h <;>
      (injection h with h; subst h; simp [statesLeft])

theorem statesLeft_le (st : State) : statesLeft st ≤ 2 := by
  cases st <;> simp [statesLeft]

theorem step_size_lt (maxlen : Int) (left right : List Nat) (c c' : Config)
    (h : step maxlen left right c = .next c') : c'.size < c.size := by
  have h1 := step_lex maxlen left right c c' h
  have h2 := statesLeft_le c'.state
  have h3 := statesLeft_le c.state
  unfold Config.size
  omega

/-- Fuel above the size of the configuration runs the loop to its `return`. -/
theorem loopN_of_size_lt (maxlen : Int) (left right : List Nat) (n : Nat) :
    ∀ c : Config, c.size < n →
      loopN maxlen left right n c = some (loop maxlen left right c) := by
  induction n with
  | zero => intro c h; omega
  | succ n ih =>
    intro c h
    simp only [loopN]
    cases hs : step maxlen left right c with
    | done out => simp only; rw [loop_done hs]
    | next c' =>
      simp only
      rw [loop_next hs]
      exact ih c' (by have := step_size_lt maxlen left right c c' hs; omega)

theorem loop_of_stepsN (maxlen : Int) (left right : List Nat) (n : Nat) :
    ∀ c c' : Config, stepsN maxlen left right n c = some c' →
      loop maxlen left right c = loop maxlen left right c' := by
  induction n with
  | zero => intro c c' h; simp only [stepsN, Option.some.injEq] at h; rw [h]
  | succ n ih =>
    intro c c' h
    simp only [stepsN] at h
    cases hs : step maxlen left right c with
    | done out => rw [hs] at h; cases h
    | next c1 => rw [hs] at h; rw [loop_next hs]; exact ih c1 c' h

theorem inv_stepsN (n : Nat) :
    ∀ c c' : Config, stepsN 63 [45] [45] n c = some c' → Inv c → Inv c' := by
  induction n with
  | zero => intro c c' h hc; simp only [stepsN, Option.some.injEq] at h; rw [← h]; exact hc
  | succ n ih =>
    intro c c' h hc
    simp only [stepsN] at h
    cases hs : step 63 [45] [45] c with
    | done out => rw [hs] at h; cases h
    | next c1 => rw [hs] at h; exact ih c1 c' h (inv_step c c1 hs hc)

theorem endClean_step (maxlen : Int) (left : List Nat) (c c' : Config)
    (h : step maxlen left [45] c = .next c') (hc : EndClean c) : EndClean c' := by
  obtain ⟨st, acc, nm⟩ := c
  cases nm with
  | nil => simp [step] at h
  | cons b rest =>
    cases st with
    | START =>
      simp only [step, afterSwitch] at h
      split_ifs at h <;> (injection h with h; subst h; intro hst; cases hst)
    | MIDDLE =>
      simp only [step, afterSwitch] at h
      split_ifs at h
      · injection h with h; subst h
        intro _ x hx
        simpa using trimRightBytes_last hx
      all_goals (injection h with h; subst h; intro hst; cases hst)
    | END =>
      have hacc := hc rfl
      simp only [step, afterSwitch, allowed_iff] at h
      split_ifs at h with h1 h2
      · injection h with h; subst h
        intro _; exact hacc
      · injection h with h; subst h
        intro _ x hx
        simp at hx
        subst hx
        exact isAlnum_ne_hyphen h2
      · injection h with h; subst h
        intro _; exact hacc

theorem endClean_stepsN (maxlen : Int) (left : List Nat) (n : Nat) :
    ∀ c c' : Config, stepsN maxlen left [45] n c = some c' → EndClean c → EndClean c' := by
  induction n with
  | zero => intro c c' h hc; simp only [stepsN, Option.some.injEq] at h; rw [← h]; exact hc
  | succ n ih =>
    intro c c' h hc
    simp only [stepsN] at h
    cases hs : step maxlen left [45] c with
    | done out => rw [hs] at h; cases h
    | next c1 => rw [hs] at h; exact ih c1 c' h (endClean_step maxlen left c c1 hs hc)

/-- In `END` the letters and digits of the input are still copied until the
output has `maxlen` bytes; everything else is dropped. -/
theorem loop_end (maxlen : Nat) (left right : List Nat) :
    ∀ (rest acc : List Nat), acc.length ≤ maxlen →
      loop maxlen left right ⟨.END, acc, rest⟩ =
        trimRightBytes
          (acc ++ (rest.filter (fun b => decide (isAlnum b))).take (maxlen - acc.length))
          right := by
  intro rest
  induction rest with
  | nil =>
    intro acc _
    have hstep : step maxlen left right ⟨.END, acc, []⟩ =
        .done (trimRightBytes acc right) := by simp [step]
    rw [loop_done hstep]
    simp
  | cons b rest ih =>
    intro acc hlen
    by_cases hfull : acc.length = maxlen
    · have hstep : step maxlen left right ⟨.END, acc, b :: rest⟩ =
          .next ⟨.END, acc, []⟩ := by
        simp only [step]
        rw [if_pos (by exact_mod_cast hfull)]
      have hdone : step maxlen left right ⟨.END, acc, []⟩ =
          .done (trimRightBytes acc right) := by simp [step]
      rw [loop_next hstep, loop_done hdone, hfull]
      simp
    · have hnf : ¬ ((acc.length : Int) = (maxlen : Int)) := by
        intro hh; exact hfull (by exact_mod_cast hh)
      have hlt : acc.length < maxlen := by omega
      by_cases ha : isAlnum b
      · have hstep : step maxlen left right ⟨.END, acc, b :: rest⟩ =
            .next ⟨.END, acc ++ [b], rest⟩ := by
          simp only [step, afterSwitch, if_neg hnf, if_pos ((allowed_iff b).2 ha)]
        rw [loop_next hstep, ih (acc ++ [b]) (by simp; omega)]
        have hsub : maxlen - acc.length = (maxlen - (acc ++ [b]).length) + 1 := by
          simp; omega
        rw [hsub]
        simp [List.filter_cons, ha, List.take_succ_cons]
      · have hstep : step maxlen left right ⟨.END, acc, b :: rest⟩ =
            .next ⟨.END, acc, rest⟩ := by
          simp only [step, afterSwitch, if_neg hnf, if_neg (fun h => ha ((allowed_iff b).1 h))]
        rw [loop_next hstep, ih acc hlen]
        simp [List.filter_cons, ha]

/-! ## Claims about the automaton: `END`, termination -/

set_option maxRecDepth 100000 in
/-- C18, counterexample: on 62 letters `a`, then `"--"`, then `"b"`, the 65th
iteration moves from `MIDDLE` to `END` with the accumulated output trimmed to
the 62 letters, and afterwards `b` is still copied: `RFC1123` returns the 62
letters followed by `b`, not the 62 letters. -/
theorem RFC1123_not_frozen :
    stepsN 63 [45] [45] 64 ⟨.START, [], ToLower id (List.replicate 62 97 ++ [45, 45, 98])⟩ =
      some ⟨.MIDDLE, List.replicate 62 97 ++ [45], [45, 98]⟩ ∧
    stepsN 63 [45] [45] 65 ⟨.START, [], ToLower id (List.replicate 62 97 ++ [45, 45, 98])⟩ =
      some ⟨.END, List.replicate 62 97, [45, 98]⟩ ∧
    RFC1123 id (List.replicate 62 97 ++ [45, 45, 98]) = List.replicate 62 97 ++ [98] ∧
    RFC1123 id (List.replicate 62 97 ++ [45, 45, 98]) ≠
      trimRightBytes (List.replicate 62 97) [45] := by
  have h : RFC1123 id (List.replicate 62 97 ++ [45, 45, 98]) = List.replicate 62 97 ++ [98] :=
    loop_of_loopN _ _ _ 70 _ _ (by decide)
  refine ⟨by decide, by decide, h, ?_⟩
  rw [h]
  decide

/-- C18, amended: once the automaton is in `END` (after the move from `MIDDLE`,
which trims the trailing hyphens of the accumulated output), letters and
digits of the remaining input are still copied until the output has 63 bytes,
and every other byte is dropped: if after `n` iterations the state is `END`
with accumulated output `acc` and remaining input `rest`, then `RFC1123(x)` is
`acc` followed by the first `63 - len(acc)` letters and digits of `rest`. -/
theorem RFC1123_after_END (lowerNonASCII : List Nat → List Nat) (x : List Nat) (n : Nat)
    (acc rest : List Nat)
    (h : stepsN 63 [45] [45] n ⟨.START, [], ToLower lowerNonASCII x⟩ = some ⟨.END, acc, rest⟩) :
    RFC1123 lowerNonASCII x =
      acc ++ (rest.filter (fun b => decide (isAlnum b))).take (63 - acc.length) := by
  have hinv : Inv ⟨.END, acc, rest⟩ :=
    inv_stepsN n _ _ h ⟨by simp, by simp, by simp, by simp, by simp⟩
  have hclean : EndClean ⟨.END, acc, rest⟩ := endClean_stepsN 63 [45] n _ _ h (by
    intro hst; cases hst)
  have hlen : acc.length ≤ 63 := hinv.2.2.1
  unfold RFC1123 stringTrimmerFSM
  have hend : loop 63 [45] [45] ⟨.END, acc, rest⟩ = _ := loop_end 63 [45] [45] rest acc hlen
  rw [loop_of_stepsN 63 [45] [45] n _ _ h, hend]
  apply trimRightBytes_id
  intro b hb
  rcases List.eq_nil_or_concat
    ((rest.filter (fun b => decide (isAlnum b))).take (63 - acc.length)) with h0 | ⟨t, c, h0⟩
  · rw [h0, List.append_nil] at hb
    simpa using hclean rfl b hb
  · rw [List.concat_eq_append] at h0
    have hc : c ∈ (rest.filter (fun b => decide (isAlnum b))).take (63 - acc.length) := by
      rw [h0]; simp
    have hal : isAlnum c := by
      have := List.mem_of_mem_take hc
      simpa using (List.mem_filter.1 this).2
    rw [h0, ← List.append_assoc] at hb
    simp at hb
    subst hb
    simpa using isAlnum_ne_hyphen hal

set_option maxRecDepth 100000 in
/-- C18, witness: the input of 62 letters `a`, `"--"`, `"b"` after 65
iterations. -/
theorem RFC1123_after_END_witness :
    RFC1123 id (List.replicate 62 97 ++ [45, 45, 98]) =
      List.replicate 62 97 ++
        (([45, 98] : List Nat).filter (fun b => decide (isAlnum b))).take
          (63 - (List.replicate 62 97).length) :=
  RFC1123_after_END id (List.replicate 62 97 ++ [45, 45, 98]) 65 (List.replicate 62 97)
    [45, 98] (by decide)

/-- C19: `stringTrimmerFSM` terminates for every input and every integer
`maxlen`: each iteration that does not return either shortens the remaining
input or keeps it and moves the state forward in `START < MIDDLE < END`, and
the loop returns within `3 * len(name) + 3` iterations. -/
theorem stringTrimmerFSM_terminates (maxlen : Int) (left right : List Nat) :
    (∀ c c' : Config, step maxlen left right c = .next c' →
      c'.name.length < c.name.length ∨
        (c'.name.length = c.name.length ∧ statesLeft c'.state < statesLeft c.state)) ∧
    (∀ c : Config, loopN maxlen left right (c.size + 1) c = some (loop maxlen left right c)) ∧
    (∀ (lowerNonASCII : List Nat → List Nat) (name : List Nat),
      loopN maxlen left right (3 * (ToLower lowerNonASCII name).length + 3)
          ⟨.START, [], ToLower lowerNonASCII name⟩ =
        some (stringTrimmerFSM lowerNonASCII name maxlen left right)) := by
  refine ⟨step_lex maxlen left right, fun c => loopN_of_size_lt _ _ _ _ c (by omega),
    fun f name => ?_⟩
  exact loopN_of_size_lt _ _ _ _ _ (by simp [Config.size, statesLeft])

/-! ## The automaton and the legacy `label` on input that needs no cut -/

theorem toLower_ascii (lowerNonASCII : List Nat → List Nat) (x : List Nat)
    (hx : ∀ b ∈ x, b < 128) : ToLower lowerNonASCII x = x.map lowerByte := by
  have hascii : x.all (fun c => decide (c < 128)) = true := by
    rw [List.all_eq_true]
    intro b hb
    simpa using hx b hb
  simp only [ToLower, hascii, if_true]
  apply List.map_congr_left
  intro b _
  rfl

theorem normalByte_lowerByte (b : Nat) : normalByte (lowerByte b) = normalByte b := by
  unfold normalByte lowerByte isLower isDigit
  split_ifs <;> first | rfl | omega

theorem normalForm_map_lowerByte (x : List Nat) :
    normalForm (x.map lowerByte) = normalForm x := by
  unfold normalForm
  rw [List.filterMap_map]
  apply List.filterMap_congr
  intro b _
  exact normalByte_lowerByte b

theorem lowerByte_not_upper (b : Nat) : ¬ (65 ≤ lowerByte b ∧ lowerByte b ≤ 90) := by
  unfold lowerByte
  split_ifs <;> omega

theorem normalByte_alnum {b : Nat} (h : isAlnum b) : normalByte b = some b := by
  unfold isAlnum isLower isDigit at h
  unfold normalByte isLower isDigit
  split_ifs <;> first | rfl | omega

theorem normalByte_sep {b : Nat} (h : b = 45 ∨ b = 95 ∨ b = 46) : normalByte b = some 45 := by
  unfold normalByte isLower isDigit
  split_ifs <;> first | rfl | omega

theorem normalByte_other {b : Nat} (hu : ¬ (65 ≤ b ∧ b ≤ 90)) (ha : ¬ isAlnum b)
    (hs : ¬ (b = 45 ∨ b = 95 ∨ b = 46)) : normalByte b = none := by
  unfold isAlnum isLower isDigit at ha
  unfold normalByte isLower isDigit
  split_ifs <;> first | rfl | omega

theorem filter_alnum_of_normalForm_nil :
    ∀ name : List Nat, (∀ c ∈ name, ¬ (65 ≤ c ∧ c ≤ 90)) → normalForm name = [] →
      name.filter (fun b => decide (isAlnum b)) = [] := by
  intro name
  induction name with
  | nil => intro _ _; rfl
  | cons b rest ih =>
    intro hup hnil
    by_cases ha : isAlnum b
    · simp [normalForm, normalByte_alnum ha] at hnil
    · have hrest : normalForm rest = [] := by
        unfold normalForm at hnil ⊢
        cases hb : normalByte b with
        | none => simpa [hb] using hnil
        | some v => simp [hb] at hnil
      simp [List.filter_cons, ha, ih (fun c hc => hup c (List.mem_cons_of_mem _ hc)) hrest]

theorem trimRightBytes_idem (s cutset : List Nat) :
    trimRightBytes (trimRightBytes s cutset) cutset = trimRightBytes s cutset :=
  trimRightBytes_id (fun _ hb => trimRightBytes_last hb)

/-- In `MIDDLE`, input whose normal form fits below the limit is accumulated as
its normal form. -/
theorem loop_middle_norm :
    ∀ (name acc : List Nat), (∀ c ∈ name, ¬ (65 ≤ c ∧ c ≤ 90)) →
      acc.length + (normalForm name).length ≤ 63 →
      loop 63 [45] [45] ⟨.MIDDLE, acc, name⟩ = trimRightBytes (acc ++ normalForm name) [45] := by
  intro name
  induction name with
  | nil =>
    intro acc _ _
    have hstep : step 63 [45] [45] ⟨.MIDDLE, acc, []⟩ = .done (trimRightBytes acc [45]) := by
      simp [step]
    rw [loop_done hstep]
    simp [normalForm]
  | cons b rest ih =>
    intro acc hup hlen
    have hrestup : ∀ c ∈ rest, ¬ (65 ≤ c ∧ c ≤ 90) := fun c hc => hup c (List.mem_cons_of_mem _ hc)
    have hbup := hup b (List.mem_cons_self _ _)
    by_cases hfull : (acc.length : Int) ≥ 63
    · have hnil : normalForm (b :: rest) = [] := by
        apply List.eq_nil_of_length_eq_zero
        omega
      have hstep : step 63 [45] [45] ⟨.MIDDLE, acc, b :: rest⟩ =
          .next ⟨.END, trimRightBytes acc [45], b :: rest⟩ := by
        simp only [step, if_pos hfull]
      have hl : (trimRightBytes acc [45]).length ≤ 63 :=
        le_trans (trimRightBytes_length_le _ _) (by omega)
      have hend : loop 63 [45] [45] ⟨.END, trimRightBytes acc [45], b :: rest⟩ = _ :=
        loop_end 63 [45] [45] (b :: rest) (trimRightBytes acc [45]) hl
      rw [loop_next hstep, hend, filter_alnum_of_normalForm_nil (b :: rest) hup hnil, hnil]
      simp [trimRightBytes_idem]
    · have hmid : ∀ v, normalByte b = some v →
          step 63 [45] [45] ⟨.MIDDLE, acc, b :: rest⟩ = .next ⟨.MIDDLE, acc ++ [v], rest⟩ := by
        intro v hv
        by_cases hs : b = 45 ∨ b = 95 ∨ b = 46
        · rw [normalByte_sep hs] at hv
          injection hv with hv; subst hv
          simp only [step, if_neg hfull, if_pos hs]
        · by_cases ha : isAlnum b
          · rw [normalByte_alnum ha] at hv
            injection hv with hv; subst hv
            simp only [step, afterSwitch, if_neg hfull, if_neg hs,
              if_pos ((allowed_iff b).2 ha)]
          · rw [normalByte_other hbup ha hs] at hv
            cases hv
      cases hb : normalByte b with
      | some v =>
        have hnf : normalForm (b :: rest) = v :: normalForm rest := by
          simp [normalForm, hb]
        rw [hnf] at hlen ⊢
        rw [loop_next (hmid v hb), ih (acc ++ [v]) hrestup (by
          simp only [List.length_append, List.length_cons, List.length_nil] at hlen ⊢
          omega)]
        simp
      | none =>
        have hnf : normalForm (b :: rest) = normalForm rest := by
          simp [normalForm, hb]
        have ha : ¬ isAlnum b := fun ha => by rw [normalByte_alnum ha] at hb; cases hb
        have hs : ¬ (b = 45 ∨ b = 95 ∨ b = 46) := fun hs => by
          rw [normalByte_sep hs] at hb; cases hb
        have hstep : step 63 [45] [45] ⟨.MIDDLE, acc, b :: rest⟩ =
            .next ⟨.MIDDLE, acc, rest⟩ := by
          simp only [step, afterSwitch, if_neg hfull, if_neg hs,
            if_neg (fun h => ha ((allowed_iff b).1 h))]
        rw [hnf] at hlen ⊢
        rw [loop_next hstep, ih acc hrestup hlen]

/-- From `START`, input whose stripped normal form fits below the limit yields
that form with trailing hyphens trimmed. -/
theorem loop_start_norm :
    ∀ name : List Nat, (∀ c ∈ name, ¬ (65 ≤ c ∧ c ≤ 90)) →
      (trimLeftBytes (normalForm name) [45]).length ≤ 63 →
      loop 63 [45] [45] ⟨.START, [], name⟩ =
        trimRightBytes (trimLeftBytes (normalForm name) [45]) [45] := by
  intro name
  induction name with
  | nil =>
    intro _ _
    have hstep : step 63 [45] [45] ⟨.START, [], []⟩ = .done (trimRightBytes [] [45]) := by
      simp [step]
    rw [loop_done hstep]
    rfl
  | cons b rest ih =>
    intro hup hlen
    have hrestup : ∀ c ∈ rest, ¬ (65 ≤ c ∧ c ≤ 90) := fun c hc => hup c (List.mem_cons_of_mem _ hc)
    have hbup := hup b (List.mem_cons_self _ _)
    by_cases ha : isAlnum b
    · have h45 : b ∉ [45] := by simpa using isAlnum_ne_hyphen ha
      have hstep : step 63 [45] [45] ⟨.START, [], b :: rest⟩ =
          .next ⟨.MIDDLE, [], b :: rest⟩ := by
        simp only [step, allowed_iff, indexAny_single]
        rw [if_pos ⟨ha, h45⟩]
      have hnf : normalForm (b :: rest) = b :: normalForm rest := by
        simp [normalForm, normalByte_alnum ha]
      have htl : trimLeftBytes (normalForm (b :: rest)) [45] = normalForm (b :: rest) := by
        rw [hnf]
        simp [trimLeftBytes, List.dropWhile, isAlnum_ne_hyphen ha]
      rw [htl] at hlen ⊢
      rw [loop_next hstep, loop_middle_norm (b :: rest) [] hup (by simpa using hlen)]
      simp
    · have hstep : step 63 [45] [45] ⟨.START, [], b :: rest⟩ = .next ⟨.START, [], rest⟩ := by
        simp only [step, afterSwitch, allowed_iff, indexAny_single]
        rw [if_neg (fun hh => ha hh.1), if_neg ha]
      have htl : trimLeftBytes (normalForm (b :: rest)) [45] =
          trimLeftBytes (normalForm rest) [45] := by
        by_cases hs : b = 45 ∨ b = 95 ∨ b = 46
        · simp [normalForm, normalByte_sep hs, trimLeftBytes, List.dropWhile]
        · simp [normalForm, normalByte_other hbup ha hs]
      rw [htl] at hlen ⊢
      rw [loop_next hstep, ih hrestup hlen]

/-- When the left-trimmed label has at most `maxlen` bytes, `trimCut` returns
it with the right cutset trimmed. -/
theorem trimCut_short (l : Slice) (maxlen : Nat) (left right : List Nat)
    (h : (TrimLeft l left).data.length ≤ maxlen) :
    trimCut l maxlen left right = some (trimRightBytes (TrimLeft l left).data right) := by
  have hsize : min (TrimLeft l left).len maxlen = (TrimLeft l left).len := by
    unfold min Slice.len
    split_ifs with h1
    · rfl
    · have : ((TrimLeft l left).data.length : Int) ≤ maxlen := by exact_mod_cast h
      omega
  have hcut : (TrimLeft l left).upto (TrimLeft l left).len =
      some ⟨(TrimLeft l left).data, (TrimLeft l left).spare⟩ := by
    unfold Slice.upto Slice.cap Slice.len
    rw [if_pos ⟨by omega, by omega⟩]
    simp
  have hsince : (TrimLeft l left).since (TrimLeft l left).len =
      some ⟨[], (TrimLeft l left).spare⟩ := by
    unfold Slice.since Slice.len
    rw [if_pos ⟨by omega, le_refl _⟩]
    simp
  unfold trimCut
  simp only [hsize, hcut, hsince]
  have htail : (TrimLeft ⟨[], (TrimLeft l left).spare⟩ right).len = 0 := by
    simp [TrimLeft, trimLeftBytes, Slice.nil, Slice.len]
  have hdata : (TrimRight ⟨(TrimLeft l left).data, (TrimLeft l left).spare⟩ right).data =
      trimRightBytes (TrimLeft l left).data right := rfl
  split_ifs with h1 h2
  · rw [hdata]
  · rw [htail] at h2; omega
  · rw [hdata]

/-! ## Claims about the automaton and the legacy `label` -/

set_option maxRecDepth 100000 in
/-- C20, counterexample: with the normal form read as worded (letters
lowercased, separators mapped to hyphens, every other byte deleted, leading
hyphens stripped) a digit is deleted.  For `x = "7"` that form is empty, yet
`stringTrimmerFSM` and `label` both return `"7"`.  For `x` = 60 digits `7`
followed by `"---b"` that form is `"b"`, one byte, yet `stringTrimmerFSM`
returns the 60 digits followed by `b` and `label` panics. -/
theorem stringTrimmerFSM_label_digits :
    lettersOnlyForm [55] = [] ∧
    stringTrimmerFSM id [55] 63 [45] [45] = [55] ∧
    label [55] 63 [45] [45] = some [55] ∧
    lettersOnlyForm (List.replicate 60 55 ++ [45, 45, 45, 98]) = [98] ∧
    stringTrimmerFSM id (List.replicate 60 55 ++ [45, 45, 45, 98]) 63 [45] [45] =
      List.replicate 60 55 ++ [98] ∧
    label (List.replicate 60 55 ++ [45, 45, 45, 98]) 63 [45] [45] = none := by
  refine ⟨by decide, ?_, by decide, by decide, ?_, by decide⟩
  · exact loop_of_loopN _ _ _ 5 _ _ (by decide)
  · exact loop_of_loopN _ _ _ 70 _ _ (by decide)

/-- C20, amended: for every ASCII input `x` whose normal form with the digits
kept (letters lowercased, digits kept, separators `-`, `_`, `.` mapped to
hyphens, other bytes deleted), stripped of leading hyphens, has at most 63
bytes, `stringTrimmerFSM(x, 63, "-", "-")` and `label(x, 63, "-", "-")` both
return that form with trailing hyphens trimmed. -/
theorem stringTrimmerFSM_eq_label (lowerNonASCII : List Nat → List Nat) (x : List Nat)
    (hascii : ∀ b ∈ x, b < 128)
    (hlen : (trimLeftBytes (normalForm x) [45]).length ≤ 63) :
    stringTrimmerFSM lowerNonASCII x 63 [45] [45] =
      trimRightBytes (trimLeftBytes (normalForm x) [45]) [45] ∧
    label x 63 [45] [45] = some (trimRightBytes (trimLeftBytes (normalForm x) [45]) [45]) := by
  constructor
  · unfold stringTrimmerFSM
    rw [toLower_ascii lowerNonASCII x hascii]
    have h := loop_start_norm (x.map lowerByte)
      (fun c hc => by
        obtain ⟨a, -, rfl⟩ := List.mem_map.1 hc
        exact lowerByte_not_upper a)
      (by rw [normalForm_map_lowerByte]; exact hlen)
    rw [normalForm_map_lowerByte] at h
    exact h
  · unfold label
    have hd : (TrimLeft (Map mapping x) [45]).data = trimLeftBytes (normalForm x) [45] := by
      rw [TrimLeft_data, Map_mapping_data]
    have h := trimCut_short (Map mapping x) 63 [45] [45] (by rw [hd]; exact hlen)
    rw [hd] at h
    exact h

/-- C20, witness: `"_My.App 2-"` has the stripped normal form `"my-app2-"`, and
both functions return `"my-app2"`. -/
theorem stringTrimmerFSM_eq_label_witness :
    stringTrimmerFSM id [95, 77, 121, 46, 65, 112, 112, 32, 50, 45] 63 [45] [45] =
      [109, 121, 45, 97, 112, 112, 50] ∧
    label [95, 77, 121, 46, 65, 112, 112, 32, 50, 45] 63 [45] [45] =
      some [109, 121, 45, 97, 112, 112, 50] := by
  have h := stringTrimmerFSM_eq_label id [95, 77, 121, 46, 65, 112, 112, 32, 50, 45]
    (by decide) (by decide)
  have hv : trimRightBytes (trimLeftBytes
      (normalForm [95, 77, 121, 46, 65, 112, 112, 32, 50, 45]) [45]) [45] =
      [109, 121, 45, 97, 112, 112, 50] := by decide
  rw [hv] at h
  exact h

/-! ## `strconv.FormatInt` -/

theorem digits_getD (d : Nat) (h : d < 36) :
    digits.getD d 0 = if d < 10 then 48 + d else 87 + d := by
  interval_cases d <;> rfl

theorem formatBits_fuel (base : Nat) (h2 : 2 ≤ base) :
    ∀ (f g u : Nat), u ≤ f → u ≤ g → formatBits base f u = formatBits base g u := by
  intro f
  induction f with
  | zero =>
    intro g u hf _
    have hu : u = 0 := by omega
    subst hu
    cases g with
    | zero => rfl
    | succ g => simp only [formatBits]; rw [if_neg (by omega)]
  | succ f ih =>
    intro g u hf hg
    cases g with
    | zero =>
      have hu : u = 0 := by omega
      subst hu
      simp only [formatBits]; rw [if_neg (by omega)]
    | succ g =>
      simp only [formatBits]
      by_cases hb : u ≥ base
      · have hdiv : u / base < u := Nat.div_lt_self (by omega) (by omega)
        rw [if_pos hb, if_pos hb, ih g (u / base) (by omega) (by omega)]
      · rw [if_neg hb, if_neg hb]

/-- The digits of `u` are those of `u / base` followed by the digit of
`u % base`. -/
theorem formatBits_self (base : Nat) (h2 : 2 ≤ base) (u : Nat) :
    formatBits base u u =
      if u ≥ base then formatBits base (u / base) (u / base) ++ [digits.getD (u % base) 0]
      else [digits.getD u 0] := by
  cases u with
  | zero => simp only [formatBits]; rw [if_neg (by omega)]
  | succ u =>
    simp only [formatBits]
    by_cases hb : u + 1 ≥ base
    · have hdiv : (u + 1) / base < u + 1 := Nat.div_lt_self (by omega) (by omega)
      rw [if_pos hb, if_pos hb,
        formatBits_fuel base h2 u ((u + 1) / base) ((u + 1) / base) (by omega) (le_refl _)]
    · rw [if_neg hb, if_neg hb]

theorem formatBits_ne_nil (base : Nat) (h2 : 2 ≤ base) (u : Nat) :
    formatBits base u u ≠ [] := by
  rw [formatBits_self base h2 u]
  split_ifs <;> simp

/-- Different numbers have different digit strings. -/
theorem formatBits_inj (base : Nat) (h2 : 2 ≤ base) (h36 : base ≤ 36) :
    ∀ n m : Nat, formatBits base n n = formatBits base m m → n = m := by
  intro n
  induction n using Nat.strong_induction_on with
  | _ n ih =>
    intro m h
    rw [formatBits_self base h2 n, formatBits_self base h2 m] at h
    have hmodn : n % base < base := Nat.mod_lt _ (by omega)
    have hmodm : m % base < base := Nat.mod_lt _ (by omega)
    by_cases hn : n ≥ base <;> by_cases hm : m ≥ base
    · rw [if_pos hn, if_pos hm] at h
      obtain ⟨h1, h3⟩ := List.append_inj' h rfl
      have hdiv : n / base < n := Nat.div_lt_self (by omega) (by omega)
      have hq := ih (n / base) hdiv (m / base) h1
      simp only [List.cons.injEq, and_true] at h3
      rw [digits_getD _ (by omega), digits_getD _ (by omega)] at h3
      have hr : n % base = m % base := by split_ifs at h3 <;> omega
      rw [← Nat.div_add_mod n base, ← Nat.div_add_mod m base, hq, hr]
    · rw [if_pos hn, if_neg hm] at h
      have hl := congrArg List.length h
      have hpos := List.length_pos.2 (formatBits_ne_nil base h2 (n / base))
      simp only [List.length_append, List.length_cons, List.length_nil] at hl
      omega
    · rw [if_neg hn, if_pos hm] at h
      have hl := congrArg List.length h
      have hpos := List.length_pos.2 (formatBits_ne_nil base h2 (m / base))
      simp only [List.length_append, List.length_cons, List.length_nil] at hl
      omega
    · rw [if_neg hn, if_neg hm] at h
      simp only [List.cons.injEq, and_true] at h
      rw [digits_getD _ (by omega), digits_getD _ (by omega)] at h
      split_ifs at h <;> omega

theorem formatBits_alnum (base : Nat) (h2 : 2 ≤ base) (h36 : base ≤ 36) :
    ∀ u : Nat, ∀ c ∈ formatBits base u u, isAlnum c := by
  intro u
  induction u using Nat.strong_induction_on with
  | _ u ih =>
    intro c hc
    rw [formatBits_self base h2 u] at hc
    have hmod : u % base < base := Nat.mod_lt _ (by omega)
    have hdig : ∀ d, d < 36 → isAlnum (digits.getD d 0) := by
      intro d hd
      rw [digits_getD d hd]
      unfold isAlnum isLower isDigit
      split_ifs <;> omega
    split_ifs at hc with hb
    · rcases List.mem_append.1 hc with h | h
      · exact ih (u / base) (Nat.div_lt_self (by omega) (by omega)) c h
      · simp only [List.mem_singleton] at h
        rw [h]; exact hdig _ (by omega)
    · simp only [List.mem_singleton] at hc
      rw [hc]; exact hdig _ (by omega)

theorem FormatInt_natCast (n base : Nat) : FormatInt (n : Int) base = formatBits base n n := by
  unfold FormatInt
  rw [if_neg (by omega)]
  simp

theorem hashStringFNV64_eq (lowerNonASCII : List Nat → List Nat) (s : List Nat) :
    ∃ n : Nat, foldedHash (fnv64a s) = (n : Int) ∧
      hashStringFNV64 lowerNonASCII s = formatBits 32 n n := by
  refine ⟨(fnv64a s >>> 32) ^^^ (fnv64a s &&& 0xffffffff), rfl, ?_⟩
  unfold hashStringFNV64 foldedHash
  rw [FormatInt_natCast]
  exact toLower_id lowerNonASCII _
    (fun b hb => Or.inl (formatBits_alnum 32 (by omega) (by omega) _ b hb))

/-! ## Claims about `hashStringFNV64` -/

/-- C15, at the inputs `""` and `"a"`: `hashStringFNV64("")` is `"17t1fu1"`,
seven characters, and `hashStringFNV64("a")` is `"km4c60"`, six characters:
`FormatInt` writes no leading zeros. -/
theorem hashStringFNV64_widths :
    hashStringFNV64 id [] = [49, 55, 116, 49, 102, 117, 49] ∧
    hashStringFNV64 id [97] = [107, 109, 52, 99, 54, 48] ∧
    (hashStringFNV64 id []).length ≠ (hashStringFNV64 id [97]).length := by
  decide

/-- C17, counterexample: the distinct strings `"ecdy"` and `"kybn"` have the
same folded hash, 370053306, and the same token `"b0t45q"`. -/
theorem hashStringFNV64_collision :
    ([101, 99, 100, 121] : List Nat) ≠ [107, 121, 98, 110] ∧
    hashStringFNV64 id [101, 99, 100, 121] = [98, 48, 116, 52, 53, 113] ∧
    hashStringFNV64 id [107, 121, 98, 110] = [98, 48, 116, 52, 53, 113] := by
  decide

/-- C17, amended: the token loses nothing of the folded hash: for all strings
`a` and `b`, `hashStringFNV64(a) = hashStringFNV64(b)` exactly when the
xor-folds of their FNV-1a hashes are equal; so equal inputs have equal tokens
and inputs with different folds have different tokens, whereas distinct inputs
with one fold collide. -/
theorem hashStringFNV64_eq_iff (lowerNonASCII : List Nat → List Nat) (a b : List Nat) :
    hashStringFNV64 lowerNonASCII a = hashStringFNV64 lowerNonASCII b ↔
      foldedHash (fnv64a a) = foldedHash (fnv64a b) := by
  obtain ⟨n, hn, ha⟩ := hashStringFNV64_eq lowerNonASCII a
  obtain ⟨m, hm, hb⟩ := hashStringFNV64_eq lowerNonASCII b
  rw [ha, hb, hn, hm]
  constructor
  · intro h
    have := formatBits_inj 32 (by omega) (by omega) n m h
    rw [this]
  · intro h
    have : n = m := by exact_mod_cast h
    rw [this]

/-! ## `hashStringSha` -/

theorem encodeChar_lower (b : Nat) :
    isDigit (lowerByte (encodeChar b)) ∨
      (97 ≤ lowerByte (encodeChar b) ∧ lowerByte (encodeChar b) ≤ 118) := by
  have hlt : b &&& 31 < 32 := Nat.and_lt_two_pow b (show 31 < 2 ^ 5 by decide)
  unfold encodeChar
  generalize b &&& 31 = v at hlt
  unfold isDigit
  interval_cases v <;> decide

theorem encodeChar_ascii (b : Nat) : encodeChar b < 128 := by
  have hlt : b &&& 31 < 32 := Nat.and_lt_two_pow b (show 31 < 2 ^ 5 by decide)
  unfold encodeChar
  generalize b &&& 31 = v at hlt
  interval_cases v <;> decide

/-- The token in terms of the first four bytes of the digest. -/
theorem hashStringSha_eq (sha1Sum lowerNonASCII : List Nat → List Nat) (s : List Nat)
    (d0 d1 d2 d3 d4 : Nat) (rest : List Nat)
    (hd : sha1Sum s = d0 :: d1 :: d2 :: d3 :: d4 :: rest) :
    hashStringSha sha1Sum lowerNonASCII s =
      [lowerByte (encodeChar (d0 >>> 3)),
       lowerByte (encodeChar (((d0 <<< 2) &&& 31) ||| ((d1 >>> 6) &&& 31))),
       lowerByte (encodeChar ((d1 >>> 1) &&& 31)),
       lowerByte (encodeChar (((d1 <<< 4) &&& 31) ||| ((d2 >>> 4) &&& 31))),
       lowerByte (encodeChar (((d2 <<< 1) &&& 31) ||| (d3 / 4 / 32))),
       lowerByte (encodeChar ((d3 / 4) &&& 31))] := by
  have h7 : d3 >>> 7 = d3 / 4 / 32 := by
    rw [Nat.shiftRight_eq_div_pow, Nat.div_div_eq_div_mul]
  have h2 : d3 >>> 2 = d3 / 4 := by
    rw [Nat.shiftRight_eq_div_pow]
  unfold hashStringSha
  rw [hd]
  simp only [EncodeToString, quantum, List.map_cons, List.cons_append, List.take_succ_cons,
    List.take_zero, h7, h2]
  rw [toLower_ascii lowerNonASCII _ (by
    intro b hb
    simp only [List.mem_cons, List.mem_nil_iff, or_false] at hb
    rcases hb with h | h | h | h | h | h <;> rw [h] <;> exact encodeChar_ascii _)]
  rfl

theorem digest_cons (d : List Nat) (h : d.length = 20) :
    ∃ d0 d1 d2 d3 d4 rest, d = d0 :: d1 :: d2 :: d3 :: d4 :: rest := by
  match d, h with
  | d0 :: d1 :: d2 :: d3 :: d4 :: rest, _ => exact ⟨d0, d1, d2, d3, d4, rest, rfl⟩

/-! ## Claims about `hashStringSha` -/

/-- C16: treating SHA-1 as an arbitrary function that returns 20 bytes, for
every input `s` the token `hashStringSha(s)` has exactly 6 characters, each in
the lowercase extended-hex alphabet `0-9a-v`, and it is determined by the
first 30 bits of the digest. -/
theorem hashStringSha_fixed (sha1Sum lowerNonASCII : List Nat → List Nat)
    (hsha : ∀ s, (sha1Sum s).length = 20 ∧ ∀ b ∈ sha1Sum s, b < 256) (s : List Nat) :
    (hashStringSha sha1Sum lowerNonASCII s).length = 6 ∧
    (∀ c ∈ hashStringSha sha1Sum lowerNonASCII s, isDigit c ∨ (97 ≤ c ∧ c ≤ 118)) ∧
    (∀ t, first30Bits (sha1Sum s) = first30Bits (sha1Sum t) →
      hashStringSha sha1Sum lowerNonASCII s = hashStringSha sha1Sum lowerNonASCII t) := by
  obtain ⟨d0, d1, d2, d3, d4, rest, hd⟩ := digest_cons (sha1Sum s) (hsha s).1
  have hs := hashStringSha_eq sha1Sum lowerNonASCII s d0 d1 d2 d3 d4 rest hd
  refine ⟨by rw [hs]; rfl, ?_, ?_⟩
  · intro c hc
    rw [hs] at hc
    simp only [List.mem_cons, List.mem_nil_iff, or_false] at hc
    rcases hc with h | h | h | h | h | h <;> rw [h] <;> exact encodeChar_lower _
  · intro t h30
    obtain ⟨e0, e1, e2, e3, e4, rest', he⟩ := digest_cons (sha1Sum t) (hsha t).1
    have ht := hashStringSha_eq sha1Sum lowerNonASCII t e0 e1 e2 e3 e4 rest' he
    have hbs := (hsha s).2
    have hbt := (hsha t).2
    rw [hd] at hbs h30
    rw [he] at hbt h30
    have b0 := hbs d0 (by simp)
    have b1 := hbs d1 (by simp)
    have b2 := hbs d2 (by simp)
    have b3 := hbs d3 (by simp)
    have c0 := hbt e0 (by simp)
    have c1 := hbt e1 (by simp)
    have c2 := hbt e2 (by simp)
    have c3 := hbt e3 (by simp)
    simp only [first30Bits, List.getD_cons_zero, List.getD_cons_succ] at h30
    have k0 : d0 = e0 := by omega
    have k1 : d1 = e1 := by omega
    have k2 : d2 = e2 := by omega
    have k3 : d3 / 4 = e3 / 4 := by omega
    rw [hs, ht, k0, k1, k2, k3]

/-- C16, witness: with a digest function that returns the 20 bytes
`0xDA, 0x39, 0xA3, 0xEE, 0x5E, ...` for every input (the SHA-1 digest of the
empty string starts so), the token of `""` is `"r8sq7r"`. -/
theorem hashStringSha_fixed_witness :
    (hashStringSha (fun _ => [218, 57, 163, 238, 94, 107, 75, 13, 50, 85, 191, 239, 149, 96,
      24, 144, 175, 216, 7, 9]) id []).length = 6 ∧
    hashStringSha (fun _ => [218, 57, 163, 238, 94, 107, 75, 13, 50, 85, 191, 239, 149, 96,
      24, 144, 175, 216, 7, 9]) id [] = [114, 56, 115, 113, 55, 114] :=
  ⟨(hashStringSha_fixed (fun _ => [218, 57, 163, 238, 94, 107, 75, 13, 50, 85, 191, 239, 149,
      96, 24, 144, 175, 216, 7, 9]) id (fun _ => ⟨rfl, fun b hb => by
      simp only [List.mem_cons, List.mem_nil_iff, or_false] at hb; omega⟩) []).1, by decide⟩

/-! ## The record store -/

theorem rrs.lookup_insert (s : rrs) (name target name' : List Nat) :
    (s.insert name target).lookup name' =
      if name' = name then
        (if target ∈ s.lookup name then s.lookup name else s.lookup name ++ [target])
      else s.lookup name' := by
  induction s with
  | nil =>
    by_cases h : name' = name
    · subst h; simp [rrs.insert, rrs.lookup]
    · have h' : ¬ name = name' := fun hh => h hh.symm
      simp [rrs.insert, rrs.lookup, h, h']
  | cons e rest ih =>
    obtain ⟨k, v⟩ := e
    by_cases hk : k = name
    · subst hk
      by_cases ht : target ∈ v
      · by_cases h : name' = k
        · subst h; simp [rrs.insert, rrs.lookup, ht]
        · have h' : ¬ k = name' := fun hh => h hh.symm
          simp [rrs.insert, rrs.lookup, ht, h, h']
      · by_cases h : name' = k
        · subst h; simp [rrs.insert, rrs.lookup, ht]
        · have h' : ¬ k = name' := fun hh => h hh.symm
          simp [rrs.insert, rrs.lookup, ht, h, h']
    · by_cases h : name' = name
      · subst h
        simp only [rrs.insert, if_neg hk, rrs.lookup, ih, if_true]
      · by_cases hk' : k = name'
        · simp [rrs.insert, rrs.lookup, hk, hk', h]
        · simp only [rrs.insert, if_neg hk, rrs.lookup, if_neg hk', ih, if_neg h]

theorem rrs.insert_of_mem (s : rrs) (name target : List Nat)
    (h : target ∈ s.lookup name) : s.insert name target = s := by
  induction s with
  | nil => simp [rrs.lookup] at h
  | cons e rest ih =>
    obtain ⟨k, v⟩ := e
    by_cases hk : k = name
    · simp only [rrs.lookup, if_pos hk] at h
      simp only [rrs.insert, if_pos hk, if_pos h]
    · simp only [rrs.lookup, if_neg hk] at h
      simp only [rrs.insert, if_neg hk, ih h]

theorem rrs.nodup_insert (s : rrs) (name target : List Nat)
    (h : ∀ n, (s.lookup n).Nodup) : ∀ n, ((s.insert name target).lookup n).Nodup := by
  intro n
  rw [rrs.lookup_insert]
  split_ifs with h1 h2
  · exact h name
  · exact List.Nodup.append (h name) (List.nodup_singleton _) (by
      intro x hx hx'
      simp only [List.mem_singleton] at hx'
      subst hx'
      exact h2 hx)
  · exact h n

theorem rrs.nodup_foldl (ops : List (List Nat × List Nat)) :
    ∀ s : rrs, (∀ n, (s.lookup n).Nodup) →
      ∀ n, (rrs.lookup (ops.foldl (fun st op => rrs.insert st op.1 op.2) s) n).Nodup := by
  induction ops with
  | nil => intro s h; exact h
  | cons op rest ih =>
    intro s h
    exact ih (s.insert op.1 op.2) (rrs.nodup_insert s op.1 op.2 h)

/-! ## Claims about the record store -/

/-- C14: inserting `(name, target)` when `target` already occurs in the
sequence for `name` leaves the store unchanged, and otherwise appends `target`
at the end of that sequence (the sequences of the other names stay as they
are); so after any sequence of insertions into the empty store no target
occurs twice under one name. -/
theorem rrs_insert_idempotent :
    (∀ (s : rrs) (name target : List Nat), target ∈ s.lookup name →
      s.insert name target = s) ∧
    (∀ (s : rrs) (name target : List Nat), target ∉ s.lookup name →
      (s.insert name target).lookup name = s.lookup name ++ [target]) ∧
    (∀ (s : rrs) (name target name' : List Nat), name' ≠ name →
      (s.insert name target).lookup name' = s.lookup name') ∧
    (∀ (ops : List (List Nat × List Nat)) (name : List Nat),
      (rrs.lookup (ops.foldl (fun st op => rrs.insert st op.1 op.2) ([] : rrs)) name).Nodup) := by
  refine ⟨rrs.insert_of_mem, fun s name target h => ?_, fun s name target name' h => ?_,
    fun ops name => rrs.nodup_foldl ops [] (fun n => by simp [rrs.lookup]) name⟩
  · rw [rrs.lookup_insert, if_pos rfl, if_neg h]
  · rw [rrs.lookup_insert, if_neg h]

/-- C14, witness: after inserting `10.0.0.1`, `10.0.0.1`, `10.0.0.2` under
`blah.mesos` the store holds exactly the 2 records `10.0.0.1`, `10.0.0.2`; the
second insertion changes nothing. -/
theorem rrs_insert_idempotent_witness :
    rrs.insert (rrs.insert [] [98, 108, 97, 104, 46, 109, 101, 115, 111, 115]
        [49, 48, 46, 48, 46, 48, 46, 49]) [98, 108, 97, 104, 46, 109, 101, 115, 111, 115]
        [49, 48, 46, 48, 46, 48, 46, 49] =
      rrs.insert [] [98, 108, 97, 104, 46, 109, 101, 115, 111, 115]
        [49, 48, 46, 48, 46, 48, 46, 49] ∧
    rrs.lookup ((((RecordGenerator.mk [] []).insertRR
        [98, 108, 97, 104, 46, 109, 101, 115, 111, 115] [49, 48, 46, 48, 46, 48, 46, 49] .A).insertRR
        [98, 108, 97, 104, 46, 109, 101, 115, 111, 115] [49, 48, 46, 48, 46, 48, 46, 49] .A).insertRR
        [98, 108, 97, 104, 46, 109, 101, 115, 111, 115] [49, 48, 46, 48, 46, 48, 46, 50] .A).As
        [98, 108, 97, 104, 46, 109, 101, 115, 111, 115] =
      [[49, 48, 46, 48, 46, 48, 46, 49], [49, 48, 46, 48, 46, 48, 46, 50]] :=
  ⟨rrs_insert_idempotent.1 (rrs.insert [] [98, 108, 97, 104, 46, 109, 101, 115, 111, 115]
      [49, 48, 46, 48, 46, 48, 46, 49]) [98, 108, 97, 104, 46, 109, 101, 115, 111, 115]
      [49, 48, 46, 48, 46, 48, 46, 49] (by decide), by decide⟩

/-! ## The leader/master synthesizer -/

theorem parseLeader_malformed (leader : List Nat) (h : Malformed leader) :
    parseLeader leader = none := by
  unfold parseLeader
  rcases h with h | h | h | h
  · rw [if_neg (by rw [List.count_eq_zero_of_not_mem h]; decide)]
  · split_ifs with h1 h2 h3
    · rw [List.count_eq_zero_of_not_mem h] at h2; cases h2
    all_goals rfl
  · split_ifs with h1 h2 h3
    · exact absurd h h3.1
    all_goals rfl
  · split_ifs with h1 h2 h3
    · exact absurd h h3.2
    all_goals rfl

theorem beforeFirst_append (c : Nat) (a r : List Nat) (h : c ∉ a) :
    beforeFirst c (a ++ c :: r) = a := by
  induction a with
  | nil => simp [beforeFirst, List.takeWhile]
  | cons x rest ih =>
    have hx : x ≠ c := fun hh => h (hh ▸ List.mem_cons_self _ _)
    have := ih (fun hh => h (List.mem_cons_of_mem _ hh))
    unfold beforeFirst at this ⊢
    simp only [List.cons_append, List.takeWhile, hx, ne_eq, not_false_eq_true, decide_True]
    exact congrArg (List.cons x) this

theorem afterFirst_append (c : Nat) (a r : List Nat) (h : c ∉ a) :
    afterFirst c (a ++ c :: r) = r := by
  induction a with
  | nil => simp [afterFirst, List.dropWhile]
  | cons x rest ih =>
    have hx : x ≠ c := fun hh => h (hh ▸ List.mem_cons_self _ _)
    have := ih (fun hh => h (List.mem_cons_of_mem _ hh))
    unfold afterFirst at this ⊢
    simp only [List.cons_append, List.dropWhile, hx, ne_eq, not_false_eq_true, decide_True]
    exact this

/-- A descriptor `id@host:port` with one `@`, one `:` behind it and non-empty
host and port is valid and parses to `host` and `port`. -/
theorem parseLeader_valid (id host port : List Nat) (hid : 64 ∉ id) (hh64 : 64 ∉ host)
    (hp64 : 64 ∉ port) (hh58 : 58 ∉ host) (hp58 : 58 ∉ port) (hhost : host ≠ [])
    (hport : port ≠ []) :
    parseLeader (id ++ 64 :: (host ++ 58 :: port)) = some (host, port) := by
  have hc64 : (id ++ 64 :: (host ++ 58 :: port)).count 64 = 1 := by
    simp [List.count_append, List.count_cons, List.count_eq_zero_of_not_mem hid,
      List.count_eq_zero_of_not_mem hh64, List.count_eq_zero_of_not_mem hp64]
  have hc58 : (host ++ 58 :: port).count 58 = 1 := by
    simp [List.count_append, List.count_cons, List.count_eq_zero_of_not_mem hh58,
      List.count_eq_zero_of_not_mem hp58]
  unfold parseLeader
  rw [if_pos hc64, afterFirst_append 64 id _ hid, if_pos hc58,
    beforeFirst_append 58 host port hh58, afterFirst_append 58 host port hh58,
    if_pos ⟨hhost, hport⟩]

theorem insertRR_A_As (rg : RecordGenerator) (name host : List Nat) :
    (rg.insertRR name host .A).As = rrs.insert rg.As name host := rfl

theorem insertRR_SRV_As (rg : RecordGenerator) (name host : List Nat) :
    (rg.insertRR name host .SRV).As = rg.As := rfl

theorem Itoa_natCast (i : Nat) : Itoa (i : Int) = formatBits 10 i i :=
  FormatInt_natCast i 10

theorem masterN_ne_masterName (i : Nat) (domain : List Nat) :
    masterN i domain ≠ masterName domain := by
  intro h
  have hl := congrArg List.length h
  have hne := List.length_pos.2 (formatBits_ne_nil 10 (by omega) i)
  simp only [masterN, masterName, Itoa_natCast, List.length_append, List.length_cons,
    List.length_nil] at hl
  omega

theorem masterN_inj (i j : Nat) (domain : List Nat) (h : masterN i domain = masterN j domain) :
    i = j := by
  simp only [masterN, Itoa_natCast, List.append_assoc, List.cons_append, List.nil_append,
    List.cons.injEq, true_and] at h
  exact formatBits_inj 10 (by omega) (by omega) i j (List.append_cancel_right h)

theorem masterN_ne_leaderName (i : Nat) (domain : List Nat) :
    masterN i domain ≠ leaderName domain := by
  intro h
  simp [masterN, leaderName] at h

theorem masterName_ne_leaderName (domain : List Nat) : masterName domain ≠ leaderName domain := by
  intro h
  simp [masterName, leaderName] at h

/-- The loop touches only `master.<domain>.` and the names `master<j>`,
`j >= i`. -/
theorem masterLoop_other (domain key : List Nat) :
    ∀ (ms : List (List Nat)) (i : Nat) (rg : RecordGenerator), key ≠ masterName domain →
      (∀ j, i ≤ j → key ≠ masterN j domain) →
      rrs.lookup (masterLoop domain i ms rg).As key = rrs.lookup rg.As key := by
  intro ms
  induction ms with
  | nil => intro i rg _ _; rfl
  | cons m rest ih =>
    intro i rg h1 h2
    simp only [masterLoop]
    rw [ih (i + 1) _ h1 (fun j hj => h2 j (by omega)), insertRR_A_As, insertRR_A_As,
      rrs.lookup_insert, if_neg (h2 i (le_refl _)), rrs.lookup_insert, if_neg h1]

theorem masterLoop_masterN (domain : List Nat) :
    ∀ (ms : List (List Nat)) (i : Nat) (rg : RecordGenerator),
      (∀ N, i ≤ N → rrs.lookup rg.As (masterN N domain) = []) →
      ∀ N, i ≤ N →
        rrs.lookup (masterLoop domain i ms rg).As (masterN N domain) =
          match ms[N - i]? with
          | some m => [hostPart m]
          | none => [] := by
  intro ms
  induction ms with
  | nil => intro i rg h N hN; simpa [masterLoop] using h N hN
  | cons m rest ih =>
    intro i rg h N hN
    simp only [masterLoop]
    rcases Nat.eq_or_lt_of_le hN with heq | hlt
    · subst heq
      rw [masterLoop_other domain (masterN i domain) rest (i + 1) _
        (masterN_ne_masterName i domain)
        (fun j hj hh => by have := masterN_inj i j domain hh; omega),
        insertRR_A_As, insertRR_A_As, rrs.lookup_insert, if_pos rfl, rrs.lookup_insert,
        if_neg (masterN_ne_masterName i domain), h i (le_refl _)]
      simp
    · have hstep : ∀ K, i + 1 ≤ K →
          rrs.lookup ((rg.insertRR (masterName domain) (hostPart m) .A).insertRR
            (masterN i domain) (hostPart m) .A).As (masterN K domain) = [] := by
        intro K hK
        rw [insertRR_A_As, insertRR_A_As, rrs.lookup_insert,
          if_neg (fun hh => by have := masterN_inj K i domain hh; omega),
          rrs.lookup_insert, if_neg (masterN_ne_masterName K domain)]
        exact h K (by omega)
      rw [ih (i + 1) _ hstep N (by omega)]
      have hidx : N - i = (N - (i + 1)) + 1 := by omega
      rw [hidx, List.getElem?_cons_succ]

theorem masterLoop_masterName (domain : List Nat) :
    ∀ (ms : List (List Nat)) (i : Nat) (rg : RecordGenerator),
      rrs.lookup (masterLoop domain i ms rg).As (masterName domain) =
        (ms.map hostPart).foldl insertTarget (rrs.lookup rg.As (masterName domain)) := by
  intro ms
  induction ms with
  | nil => intro i rg; rfl
  | cons m rest ih =>
    intro i rg
    simp only [masterLoop, List.map_cons, List.foldl_cons]
    rw [ih (i + 1), insertRR_A_As, insertRR_A_As, rrs.lookup_insert,
      if_neg (fun hh => masterN_ne_masterName i domain hh.symm), rrs.lookup_insert, if_pos rfl]
    rfl

theorem mem_firstOccurrences (x : List Nat) :
    ∀ l : List (List Nat), x ∈ firstOccurrences l ↔ x ∈ l := by
  intro l
  induction l with
  | nil => simp [firstOccurrences]
  | cons a rest ih =>
    simp only [firstOccurrences, List.mem_cons, List.mem_filter, decide_eq_true_eq, ih]
    constructor
    · rintro (h | ⟨h, -⟩)
      · exact Or.inl h
      · exact Or.inr h
    · intro h
      by_cases hx : x = a
      · exact Or.inl hx
      · exact Or.inr ⟨h.resolve_left hx, hx⟩

/-- Inserting the elements of `l` one by one keeps what was there and adds the
first occurrences of the new ones. -/
theorem foldl_insertTarget :
    ∀ (l acc : List (List Nat)),
      l.foldl insertTarget acc =
        acc ++ (firstOccurrences l).filter (fun x => decide (x ∉ acc)) := by
  intro l
  induction l with
  | nil => intro acc; simp [firstOccurrences]
  | cons a rest ih =>
    intro acc
    rw [List.foldl_cons, ih]
    by_cases ha : a ∈ acc
    · simp only [insertTarget, if_pos ha, firstOccurrences, List.filter_cons]
      have : decide (a ∉ acc) = false := by simpa using ha
      rw [this]
      simp only [Bool.false_eq_true, if_false, List.filter_filter]
      congr 1
      apply List.filter_congr
      intro x _
      by_cases hx : x ∈ acc
      · simp [hx]
      · have : x ≠ a := fun h => hx (h ▸ ha)
        simp [hx, this]
    · simp only [insertTarget, if_neg ha, firstOccurrences, List.filter_cons]
      have : decide (a ∉ acc) = true := by simpa using ha
      rw [this]
      simp only [if_true, List.filter_filter, List.append_assoc, List.singleton_append]
      congr 2
      apply List.filter_congr
      intro x _
      by_cases hx : x ∈ acc
      · simp [hx]
      · by_cases hxa : x = a
        · simp [hxa]
        · simp [hx, hxa]

theorem dedupMasters_eq (L : List (List Nat)) : dedupMasters L = firstOccurrences L := by
  have h := foldl_insertTarget L []
  simp only [List.nil_append, List.not_mem_nil, not_false_eq_true, decide_True,
    List.filter_true] at h
  exact h

/-- The address store after `masterRecord` on empty stores, for a valid
leader descriptor. -/
theorem masterRecord_As (domain : List Nat) (L : List (List Nat)) (leader host port : List Nat)
    (hvalid : parseLeader leader = some (host, port)) :
    ∃ rg4 : RecordGenerator,
      (masterRecord domain L leader ⟨[], []⟩) =
        masterLoop domain 0 (uniqueMasters L (host ++ [58] ++ port)) rg4 ∧
      rg4.As = rrs.insert (rrs.insert [] (leaderName domain) host) (masterName domain) host := by
  refine ⟨((((RecordGenerator.mk [] []).insertRR (leaderName domain) host .A).insertRR
    (masterName domain) host .A).insertRR
    ([95, 108, 101, 97, 100, 101, 114, 46, 95, 116, 99, 112, 46] ++ domain ++ [46])
    (leaderName domain ++ [58] ++ port) .SRV).insertRR
    ([95, 108, 101, 97, 100, 101, 114, 46, 95, 117, 100, 112, 46] ++ domain ++ [46])
    (leaderName domain ++ [58] ++ port) .SRV, ?_, rfl⟩
  · unfold masterRecord
    rw [hvalid]
    simp only
    have hu : (if host ++ [58] ++ port ∈ dedupMasters L then dedupMasters L
        else dedupMasters L ++ [host ++ [58] ++ port]) =
        uniqueMasters L (host ++ [58] ++ port) := by
      unfold uniqueMasters
      rw [dedupMasters_eq]
      by_cases hm : host ++ [58] ++ port ∈ L
      · rw [if_pos ((mem_firstOccurrences _ L).2 hm), if_pos hm, List.append_nil]
      · rw [if_neg (fun h => hm ((mem_firstOccurrences _ L).1 h)), if_neg hm]
    rw [hu]

/-! ## Claims about the leader/master synthesizer -/

/-- C12: for every domain, every fallback list `L` and every valid leader
descriptor `id@host:port`, let `U` be `L` deduplicated by first occurrence
with `host:port` appended if absent; after `masterRecord(domain, L, leader)` on
empty stores the address record `master<N>.<domain>.` is exactly the host
part of `U[N]` for every `N < len(U)`, there is no `master<N>` record for
`N >= len(U)`, and `master.<domain>.` is the leader host followed by the
distinct other hosts of `U` in order. -/
theorem masterRecord_indexing (domain : List Nat) (L : List (List Nat))
    (leader host port : List Nat) (hvalid : parseLeader leader = some (host, port)) :
    (∀ N m, (uniqueMasters L (host ++ [58] ++ port))[N]? = some m →
      rrs.lookup (masterRecord domain L leader ⟨[], []⟩).As (masterN N domain) =
        [hostPart m]) ∧
    (∀ N, (uniqueMasters L (host ++ [58] ++ port)).length ≤ N →
      rrs.lookup (masterRecord domain L leader ⟨[], []⟩).As (masterN N domain) = []) ∧
    rrs.lookup (masterRecord domain L leader ⟨[], []⟩).As (masterName domain) =
      firstOccurrences (host :: (uniqueMasters L (host ++ [58] ++ port)).map hostPart) := by
  obtain ⟨rg4, hrec, hAs⟩ := masterRecord_As domain L leader host port hvalid
  have hempty : ∀ N, 0 ≤ N → rrs.lookup rg4.As (masterN N domain) = [] := by
    intro N _
    rw [hAs, rrs.lookup_insert, if_neg (masterN_ne_masterName N domain), rrs.lookup_insert,
      if_neg (masterN_ne_leaderName N domain)]
    rfl
  have hmaster : rrs.lookup rg4.As (masterName domain) = [host] := by
    rw [hAs, rrs.lookup_insert, if_pos rfl, rrs.lookup_insert,
      if_neg (masterName_ne_leaderName domain)]
    rfl
  have hN := masterLoop_masterN domain (uniqueMasters L (host ++ [58] ++ port)) 0 rg4 hempty
  refine ⟨fun N m hm => ?_, fun N hlen => ?_, ?_⟩
  · rw [hrec, hN N (Nat.zero_le _), Nat.sub_zero, hm]
  · rw [hrec, hN N (Nat.zero_le _), Nat.sub_zero, List.getElem?_eq_none hlen]
  · rw [hrec, masterLoop_masterName, hmaster, foldl_insertTarget]
    simp only [firstOccurrences, List.singleton_append, List.cons.injEq, true_and]
    apply List.filter_congr
    intro x _
    simp

/-- C12, witness: the test case `L = ["8:9", "6:7", "bob:0"]`, leader `"5@6:7"`,
domain `"foo.com"`: `master0` is `8`, `master1` is `6`, `master2` is `bob`,
there is no `master3`, and `master.foo.com.` is `[6, 8, bob]`. -/
theorem masterRecord_indexing_witness :
    rrs.lookup (masterRecord [102, 111, 111, 46, 99, 111, 109]
        [[56, 58, 57], [54, 58, 55], [98, 111, 98, 58, 48]] [53, 64, 54, 58, 55] ⟨[], []⟩).As
        (masterN 0 [102, 111, 111, 46, 99, 111, 109]) = [[56]] ∧
    rrs.lookup (masterRecord [102, 111, 111, 46, 99, 111, 109]
        [[56, 58, 57], [54, 58, 55], [98, 111, 98, 58, 48]] [53, 64, 54, 58, 55] ⟨[], []⟩).As
        (masterN 1 [102, 111, 111, 46, 99, 111, 109]) = [[54]] ∧
    rrs.lookup (masterRecord [102, 111, 111, 46, 99, 111, 109]
        [[56, 58, 57], [54, 58, 55], [98, 111, 98, 58, 48]] [53, 64, 54, 58, 55] ⟨[], []⟩).As
        (masterN 2 [102, 111, 111, 46, 99, 111, 109]) = [[98, 111, 98]] ∧
    rrs.lookup (masterRecord [102, 111, 111, 46, 99, 111, 109]
        [[56, 58, 57], [54, 58, 55], [98, 111, 98, 58, 48]] [53, 64, 54, 58, 55] ⟨[], []⟩).As
        (masterN 3 [102, 111, 111, 46, 99, 111, 109]) = [] ∧
    rrs.lookup (masterRecord [102, 111, 111, 46, 99, 111, 109]
        [[56, 58, 57], [54, 58, 55], [98, 111, 98, 58, 48]] [53, 64, 54, 58, 55] ⟨[], []⟩).As
        (masterName [102, 111, 111, 46, 99, 111, 109]) = [[54], [56], [98, 111, 98]] := by
  have h := masterRecord_indexing [102, 111, 111, 46, 99, 111, 109]
    [[56, 58, 57], [54, 58, 55], [98, 111, 98, 58, 48]] [53, 64, 54, 58, 55] [54] [55]
    (by decide)
  refine ⟨?_, ?_, ?_, ?_, ?_⟩
  · rw [h.1 0 [56, 58, 57] (by decide)]; decide
  · rw [h.1 1 [54, 58, 55] (by decide)]; decide
  · rw [h.1 2 [98, 111, 98, 58, 48] (by decide)]; decide
  · exact h.2.1 3 (by decide)
  · rw [h.2.2]; decide

/-- C13: for every malformed leader descriptor (no `@`, no `:` after the `@`,
empty host or empty port) and every domain and fallback list, `masterRecord`
inserts nothing: it returns the stores it was given, so on empty stores both
the address store and the service store stay empty. -/
theorem masterRecord_malformed (domain : List Nat) (L : List (List Nat)) (leader : List Nat)
    (h : Malformed leader) :
    (∀ rg : RecordGenerator, masterRecord domain L leader rg = rg) ∧
    (masterRecord domain L leader ⟨[], []⟩).As = [] ∧
    (masterRecord domain L leader ⟨[], []⟩).SRVs = [] := by
  have hrg : ∀ rg : RecordGenerator, masterRecord domain L leader rg = rg := by
    intro rg
    unfold masterRecord
    rw [parseLeader_malformed leader h]
  exact ⟨hrg, by rw [hrg], by rw [hrg]⟩

/-- C13, witness: the descriptors `""`, `"@"`, `"1@"`, `"@2"`, `"3@4"` of the
test, with the fallback list `["8:9"]`. -/
theorem masterRecord_malformed_witness :
    masterRecord [102, 111, 111, 46, 99, 111, 109] [[56, 58, 57]] [] ⟨[], []⟩ = ⟨[], []⟩ ∧
    masterRecord [102, 111, 111, 46, 99, 111, 109] [[56, 58, 57]] [64] ⟨[], []⟩ = ⟨[], []⟩ ∧
    masterRecord [102, 111, 111, 46, 99, 111, 109] [[56, 58, 57]] [49, 64] ⟨[], []⟩ = ⟨[], []⟩ ∧
    masterRecord [102, 111, 111, 46, 99, 111, 109] [[56, 58, 57]] [64, 50] ⟨[], []⟩ = ⟨[], []⟩ ∧
    masterRecord [102, 111, 111, 46, 99, 111, 109] [[56, 58, 57]] [51, 64, 52] ⟨[], []⟩ =
      ⟨[], []⟩ :=
  ⟨(masterRecord_malformed _ _ [] (by decide)).1 _,
   (masterRecord_malformed _ _ [64] (by decide)).1 _,
   (masterRecord_malformed _ _ [49, 64] (by decide)).1 _,
   (masterRecord_malformed _ _ [64, 50] (by decide)).1 _,
   (masterRecord_malformed _ _ [51, 64, 52] (by decide)).1 _⟩

end Labels
